import Mathlib

/-!
Shallow embedding of the ARA dense double-precision matrix-multiplication
microkernel (src/apps/matmul_fp/kernel/matmul.c) and proofs about it.

Modelling choices
* Matrices are caller-owned, contiguous, row-major flat buffers; we model a
  buffer as a `List α` and a pointer as a natural-number offset into it.
  A load at an offset outside the buffer is an out-of-bounds access
  (undefined behaviour in the C source); the embedding makes every memory
  operation fallible and returns `none` on the first out-of-bounds access.
* Scalar element values are kept fully abstract: every definition is
  parametrised by the element type `α` and by the fused multiply-accumulate
  operation `fma : α → α → α → α` (`fma a b acc` models the single-rounding
  `acc + a*b` of `vfmacc.vf`).  No algebraic law about `fma` is assumed, so
  an equality between two computations proved here is a bit-for-bit
  equality of the same FMA dependency chain, valid in particular for IEEE
  double precision.  Concrete evaluations instantiate `α := ℤ` with
  `fma a b acc := a * b + acc`.
* The `vsetvli` vector-length negotiation is modelled after the RVV
  semantics implemented by the ARA hardware: for an application vector
  length `avl` the grant is `min avl VLMAX`, where `VLMAX` is the hardware
  maximum for `e64/m4`, a parameter of the model.
* The variable-length vector registers `v0,v4,v8,v12,v16,v20` are modelled
  as lists of the current vector length; `vle64.v`/`vse64.v` move `vl`
  consecutive elements between a buffer and such a list.
* The C `while` loop of `matmul_vec_4x4` is translated with an explicit
  structural counter `rem`; every call site maintains `rem = N - n`, so the
  counter reaching `0` is exactly the loop condition `n < N` failing, and
  the translation is total while following the source control flow
  (including the mid-loop `break` and the overrun that happens when the
  break is never taken).
-/

namespace ARA

/-- Errors of the embedding: `oob` marks an out-of-bounds memory access
(undefined behaviour in the C source), `stall` marks non-termination of the
driver loop (which in C would spin forever when the granted vector length
is zero). -/
inductive KErr : Type where
  | oob : KErr
  | stall : KErr
deriving DecidableEq, Repr

section Mem

variable {α : Type}

/-- Scalar load (`fld`): read one element at offset `i`, failing when the
offset is outside the buffer. -/
def read1 (l : List α) (i : ℕ) : Option α :=
  l.get? i

/-- Vector load (`vle64.v`): read `n` consecutive elements starting at
offset `i`, failing when any of them is outside the buffer. -/
def readMany (l : List α) (i : ℕ) : ℕ → Option (List α)
  | 0 => some []
  | n + 1 =>
    match l.get? i with
    | none => none
    | some x =>
      match readMany l (i + 1) n with
      | none => none
      | some xs => some (x :: xs)

/-- Total description of the segment of `n` elements starting at offset
`i` (the value a successful `readMany` returns). -/
def readSeg [Inhabited α] (l : List α) (i : ℕ) : ℕ → List α
  | 0 => []
  | n + 1 => l.getD i default :: readSeg l (i + 1) n

/-- Overwrite consecutive elements starting at offset `i` with the
elements of `v`. -/
def setMany : List α → ℕ → List α → List α
  | l, _, [] => l
  | l, i, x :: xs => setMany (l.set i x) (i + 1) xs

/-- Vector store (`vse64.v`): write the elements of `v` at consecutive
offsets starting at `i`, failing when any offset is outside the buffer. -/
def writeMany (l : List α) (i : ℕ) (v : List α) : Option (List α) :=
  if i + v.length ≤ l.length then some (setMany l i v) else none

theorem get?_eq_some_getD [Inhabited α] (l : List α) (i : ℕ) (h : i < l.length) :
    l.get? i = some (l.getD i default) := by
  induction l generalizing i with
  | nil => simp at h
  | cons x xs ih =>
    cases i with
    | zero => rfl
    | succ j =>
      simp only [List.length_cons, Nat.succ_lt_succ_iff] at h
      simpa [List.get?, List.getD] using ih j h

theorem read1_ok [Inhabited α] (l : List α) (i : ℕ) (h : i < l.length) :
    read1 l i = some (l.getD i default) :=
  get?_eq_some_getD l i h

theorem readMany_ok [Inhabited α] (l : List α) :
    ∀ (n i : ℕ), i + n ≤ l.length → readMany l i n = some (readSeg l i n) := by
  intro n
  induction n with
  | zero => intro i _; rfl
  | succ n ih =>
    intro i h
    have hi : i < l.length := by omega
    have hrec : (i + 1) + n ≤ l.length := by omega
    simp only [readMany, readSeg, get?_eq_some_getD l i hi, ih (i + 1) hrec]

theorem readSeg_length [Inhabited α] (l : List α) :
    ∀ (n i : ℕ), (readSeg l i n).length = n := by
  intro n
  induction n with
  | zero => intro i; rfl
  | succ n ih => intro i; simp [readSeg, ih]

theorem readSeg_get? [Inhabited α] (l : List α) :
    ∀ (n i j : ℕ), j < n → (readSeg l i n).get? j = some (l.getD (i + j) default) := by
  intro n
  induction n with
  | zero => intro i j hj; omega
  | succ n ih =>
    intro i j hj
    cases j with
    | zero => simp [readSeg]
    | succ j' =>
      have := ih (i + 1) j' (by omega)
      simpa [readSeg, Nat.add_assoc, Nat.add_comm 1 j'] using this

theorem get?_set_same (l : List α) (x : α) :
    ∀ (i : ℕ), i < l.length → (l.set i x).get? i = some x := by
  induction l with
  | nil => intro i h; simp at h
  | cons y ys ih =>
    intro i h
    cases i with
    | zero => rfl
    | succ j =>
      simp only [List.length_cons, Nat.succ_lt_succ_iff] at h
      simpa [List.set, List.get?] using ih j h

theorem get?_set_other (l : List α) (x : α) :
    ∀ (i j : ℕ), i ≠ j → (l.set i x).get? j = l.get? j := by
  induction l with
  | nil => intro i j _; simp [List.set]
  | cons y ys ih =>
    intro i j hne
    cases i with
    | zero =>
      cases j with
      | zero => exact absurd rfl hne
      | succ j' => rfl
    | succ i' =>
      cases j with
      | zero => rfl
      | succ j' => simpa [List.set, List.get?] using ih i' j' (by omega)

theorem setMany_length (v : List α) :
    ∀ (l : List α) (i : ℕ), (setMany l i v).length = l.length := by
  induction v with
  | nil => intro l i; rfl
  | cons x xs ih => intro l i; simp [setMany, ih]

theorem setMany_get?_lt (v : List α) :
    ∀ (l : List α) (i j : ℕ), j < i → (setMany l i v).get? j = l.get? j := by
  induction v with
  | nil => intro l i j _; rfl
  | cons x xs ih =>
    intro l i j hj
    simp only [setMany]
    rw [ih (l.set i x) (i + 1) j (by omega), get?_set_other l x i j (by omega)]

theorem setMany_get?_ge (v : List α) :
    ∀ (l : List α) (i j : ℕ), i + v.length ≤ j → (setMany l i v).get? j = l.get? j := by
  induction v with
  | nil => intro l i j _; rfl
  | cons x xs ih =>
    intro l i j hj
    simp only [List.length_cons] at hj
    simp only [setMany]
    rw [ih (l.set i x) (i + 1) j (by omega), get?_set_other l x i j (by omega)]

theorem setMany_get?_in (v : List α) :
    ∀ (l : List α) (i j : ℕ), j < v.length → i + v.length ≤ l.length →
      (setMany l i v).get? (i + j) = v.get? j := by
  induction v with
  | nil => intro l i j hj _; simp at hj
  | cons x xs ih =>
    intro l i j hj hlen
    simp only [List.length_cons] at hj hlen
    cases j with
    | zero =>
      simp only [setMany]
      rw [setMany_get?_lt xs (l.set i x) (i + 1) (i + 0) (by omega)]
      simpa using get?_set_same l x i (by omega)
    | succ j' =>
      have := ih (l.set i x) (i + 1) j' (by omega) (by simpa using by omega)
      simpa [setMany, Nat.add_assoc, Nat.add_comm 1 j'] using this

theorem writeMany_ok (l : List α) (i : ℕ) (v : List α) (h : i + v.length ≤ l.length) :
    writeMany l i v = some (setMany l i v) := by
  simp [writeMany, h]

end Mem

section Kernel

variable {α : Type}

/-- Vector fused multiply-accumulate (`vfmacc.vf vd, t, vs`): pointwise
`acc[j] := fma t v[j] acc[j]` over the active vector length (the common
length of the two lists). -/
def vfmacc (fma : α → α → α → α) (t : α) : List α → List α → List α
  | b :: bs, x :: xs => fma t b x :: vfmacc fma t bs xs
  | _, _ => []

/-- The four scalar prefetch loads of one column of the 4-row block of A
(`fld` at `a`, `a+lda`, `a+2*lda`, `a+3*lda`, with `lda = N` elements). -/
def loadA4 (a : List α) (i N : ℕ) : Option (α × α × α × α) :=
  match read1 a i with
  | none => none
  | some t0 =>
    match read1 a (i + N) with
    | none => none
    | some t1 =>
      match read1 a (i + 2 * N) with
      | none => none
      | some t2 =>
        match read1 a (i + 3 * N) with
        | none => none
        | some t3 => some (t0, t1, t2, t3)

/-- State handed from the reduction loop of `matmul_vec_4x4` to its final
store-back section: the four accumulators `v0,v4,v8,v12`, the four scalar
registers `t0..t3`, and the B-row vector register `v20` that the final
`vfmacc.vf` instructions consume. -/
structure MVSt (α : Type) : Type where
  a0 : List α
  a1 : List α
  a2 : List α
  a3 : List α
  t0 : α
  t1 : α
  t2 : α
  t3 : α
  vB : List α

/-- The `while (n < N)` reduction loop of `matmul_vec_4x4`
(matmul.c lines 70-101).  `rem` is a structural counter maintained equal
to `N - n` by every call site, so `rem = 0` is exactly the loop condition
`n < N` failing.  Each iteration mirrors the source: load the next row of
B into the alternate vector register, increment `n`, do the four
`vfmacc.vf` with the previously loaded scalar/vector pair interleaved with
the four scalar reloads from column `n` of the A block (grouped here after
the accumulations; each `vfmacc.vf` reads the scalar register before it is
reloaded, so the dataflow per register is identical to the source order),
`break` when `n == N-1`, then the symmetric second unrolled half.  When
`rem` runs out mid-iteration (`n+2 > N`, the odd-`N` overrun path) the
loop exits exactly as the C `while` condition does. -/
def mvLoop (fma : α → α → α → α) (a b : List α) (aOff N P vl : ℕ) :
    ℕ → ℕ → α → α → α → α → List α → List α →
    List α → List α → List α → List α → ℕ → Option (MVSt α)
  | 0, _, t0, t1, t2, t3, _, v20, acc0, acc1, acc2, acc3, _ =>
    some ⟨acc0, acc1, acc2, acc3, t0, t1, t2, t3, v20⟩
  | r + 1, n, t0, t1, t2, t3, v16, _, acc0, acc1, acc2, acc3, bOff =>
    match readMany b bOff vl with
    | none => none
    | some v20X =>
      let acc0X := vfmacc fma t0 v16 acc0
      let acc1X := vfmacc fma t1 v16 acc1
      let acc2X := vfmacc fma t2 v16 acc2
      let acc3X := vfmacc fma t3 v16 acc3
      match loadA4 a (aOff + (n + 1)) N with
      | none => none
      | some (t0X, t1X, t2X, t3X) =>
        if n + 1 = N - 1 then
          some ⟨acc0X, acc1X, acc2X, acc3X, t0X, t1X, t2X, t3X, v20X⟩
        else
          match readMany b (bOff + P) vl with
          | none => none
          | some v16X =>
            let acc0Y := vfmacc fma t0X v20X acc0X
            let acc1Y := vfmacc fma t1X v20X acc1X
            let acc2Y := vfmacc fma t2X v20X acc2X
            let acc3Y := vfmacc fma t3X v20X acc3X
            match loadA4 a (aOff + (n + 2)) N with
            | none => none
            | some (t0Y, t1Y, t2Y, t3Y) =>
              match r with
              | 0 => some ⟨acc0Y, acc1Y, acc2Y, acc3Y, t0Y, t1Y, t2Y, t3Y, v20X⟩
              | rX + 1 =>
                mvLoop fma a b aOff N P vl rX (n + 2)
                  t0Y t1Y t2Y t3Y v16X v20X acc0Y acc1Y acc2Y acc3Y (bOff + 2 * P)

/-- The store-back section of `matmul_vec_4x4` (matmul.c lines 103-111):
one final `vfmacc.vf` per row using the register pair left by the loop,
then `vse64.v` each accumulator to its row of C, advancing by `ldc = P`. -/
def mvTail (fma : α → α → α → α) (c : List α) (cOff P : ℕ) (st : MVSt α) :
    Option (List α) :=
  match writeMany c cOff (vfmacc fma st.t0 st.vB st.a0) with
  | none => none
  | some c1 =>
    match writeMany c1 (cOff + P) (vfmacc fma st.t1 st.vB st.a1) with
    | none => none
    | some c2 =>
      match writeMany c2 (cOff + 2 * P) (vfmacc fma st.t2 st.vB st.a2) with
      | none => none
      | some c3 => writeMany c3 (cOff + 3 * P) (vfmacc fma st.t3 st.vB st.a3)

/-- `matmul_vec_4x4` (matmul.c lines 46-112): software-pipelined reduction
of a 4-row block of A against a `vl`-column chunk of B, accumulating into
`acc0..acc3` and storing the results back to C.  Prefetches the first row
of B (`v16`) and the first column of the A block (`t0..t3`), runs the
reduction loop, then the store-back tail.  The uninitialised register
`v20` at loop entry is modelled as the empty vector (it is overwritten
before first use whenever `N ≥ 1`). -/
def matmul_vec_4x4 (fma : α → α → α → α) (c : List α) (cOff : ℕ)
    (a : List α) (aOff : ℕ) (b : List α) (bOff : ℕ) (N P vl : ℕ)
    (acc0 acc1 acc2 acc3 : List α) : Option (List α) :=
  match readMany b bOff vl with
  | none => none
  | some v16 =>
    match loadA4 a aOff N with
    | none => none
    | some (t0, t1, t2, t3) =>
      match mvLoop fma a b aOff N P vl N 0 t0 t1 t2 t3 v16 []
          acc0 acc1 acc2 acc3 (bOff + P) with
      | none => none
      | some st => mvTail fma c cOff P st

/-- `matmul_vec_4x4_slice_init` (matmul.c lines 36-44): load the four rows
of the 4×`vl` block of C based at `cOff` into the four accumulators,
advancing by `ldc = P` between loads. -/
def matmul_vec_4x4_slice_init (c : List α) (cOff P vl : ℕ) :
    Option (List α × List α × List α × List α) :=
  match readMany c cOff vl with
  | none => none
  | some v0 =>
    match readMany c (cOff + P) vl with
    | none => none
    | some v4 =>
      match readMany c (cOff + 2 * P) vl with
      | none => none
      | some v8 =>
        match readMany c (cOff + 3 * P) vl with
        | none => none
        | some v12 => some (v0, v4, v8, v12)

/-- Body of the row loop of `matmul` (matmul.c lines 24-32): for the row
group based at row `m` and the column chunk based at column `p`, call the
accumulator initializer then the inner kernel on the sub-blocks
`c + p + m*P`, `a + m*N`, `b + p`. -/
def mBody (fma : α → α → α → α) (a b : List α) (c : List α)
    (p vl m N P : ℕ) : Option (List α) :=
  match matmul_vec_4x4_slice_init c (p + m * P) P vl with
  | none => none
  | some (acc0, acc1, acc2, acc3) =>
    matmul_vec_4x4 fma c (p + m * P) a (m * N) b p N P vl acc0 acc1 acc2 acc3

/-- The row loop of `matmul` (`for m = 0; m < M; m += 4`).  The structural
counter is the number `M - m` of remaining rows; call sites maintain the
correspondence, so counter `0` is the loop condition `m < M` failing, a
counter `≥ 4` runs one body and continues, and a remaining count of 1..3
rows (an `M` that is not a multiple of 4) runs one last overrunning body
and exits, exactly as the C loop does. -/
def mLoop (fma : α → α → α → α) (a b : List α) (p vl N P : ℕ) :
    ℕ → ℕ → List α → Option (List α)
  | 0, _, c => some c
  | r + 4, m, c =>
    match mBody fma a b c p vl m N P with
    | none => none
    | some cX => mLoop fma a b p vl N P r (m + 4) cX
  | _, m, c => mBody fma a b c p vl m N P

/-- Model of `vsetvli` with element width `e64` and grouping `m4` on the
ARA hardware: the granted vector length for application vector length
`avl` is `min avl VLMAX`, where `VLMAX` is the hardware maximum. -/
def vset (VLMAX avl : ℕ) : ℕ :=
  min avl VLMAX

/-- The column-chunk loop of `matmul` (matmul.c lines 14-33): advance `p`
by the negotiated `block_size_p` per iteration; per chunk, re-negotiate
the vector length with the remaining column count `min (P - p) bsp` and
run the row loop.  The fuel argument only detects non-termination: the C
loop diverges exactly when `bsp = 0` and `p < P`, and with fuel `P` the
`stall` marker is returned exactly in that situation. -/
def pLoop (fma : α → α → α → α) (a b : List α) (M N P VLMAX bsp : ℕ) :
    ℕ → ℕ → List α → Except KErr (List α)
  | 0, p, c => if p < P then .error .stall else .ok c
  | f + 1, p, c =>
    if p < P then
      match mLoop fma a b p (vset VLMAX (min (P - p) bsp)) N P M 0 c with
      | none => .error .oob
      | some cX => pLoop fma a b M N P VLMAX bsp f (p + bsp) cX
    else .ok c

/-- `matmul` (matmul.c lines 5-34): negotiate `block_size_p` for `P`
columns of 64-bit elements, then run the column-chunk loop from `p = 0`.
`VLMAX` is the hardware parameter of the `vsetvli` model. -/
def matmul (fma : α → α → α → α) (c a b : List α) (M N P VLMAX : ℕ) :
    Except KErr (List α) :=
  pLoop fma a b M N P VLMAX (vset VLMAX P) P 0 c

end Kernel

section SpecSide

variable {α : Type}

/-- Reference ascending reduction at vector level: apply
`acc := vfmacc (f k) (g k) acc` for `k = k0, k0+1, …, k0+cnt-1`, in
strictly ascending order. -/
def foldFmaVec (fma : α → α → α → α) (f : ℕ → α) (g : ℕ → List α) :
    ℕ → ℕ → List α → List α
  | _, 0, acc => acc
  | k, cnt + 1, acc => foldFmaVec fma f g (k + 1) cnt (vfmacc fma (f k) (g k) acc)

/-- Reference ascending reduction at scalar level, starting at step `k0`:
`acc := fma (f k) (g k) acc` for `k = k0, …, k0+cnt-1`, ascending. -/
def dotFmaFrom (fma : α → α → α → α) (f g : ℕ → α) : ℕ → ℕ → α → α
  | _, 0, acc => acc
  | k, cnt + 1, acc => dotFmaFrom fma f g (k + 1) cnt (fma (f k) (g k) acc)

/-- The naive strictly-ascending-k FMA reduction
`init, fma (f 0) (g 0) ·, …, fma (f (N-1)) (g (N-1)) ·`. -/
def dotFma (fma : α → α → α → α) (f g : ℕ → α) (N : ℕ) (init : α) : α :=
  dotFmaFrom fma f g 0 N init

/-- Modelled from the spec's postcondition (§6): the value the element
`C[i][j]` must hold after the call, namely the prior value plus the
ascending-k FMA reduction of row `i` of A against column `j` of B. -/
def refC [Inhabited α] (fma : α → α → α → α) (c a b : List α)
    (N P : ℕ) (i j : ℕ) : α :=
  dotFma fma (fun k => a.getD (i * N + k) default)
    (fun k => b.getD (k * P + j) default) N (c.getD (i * P + j) default)

theorem getD_of_get? [Inhabited α] (l : List α) :
    ∀ (j : ℕ) (x : α), l.get? j = some x → l.getD j default = x := by
  induction l with
  | nil => intro j x h; simp [read1] at h
  | cons y ys ih =>
    intro j x h
    cases j with
    | zero =>
      have h0 : some y = some x := h
      simpa [List.getD] using Option.some.inj h0
    | succ j' =>
      have h' : ys.get? j' = some x := h
      simpa [List.getD] using ih j' x h'

theorem vfmacc_length (fma : α → α → α → α) (t : α) :
    ∀ v x : List α, (vfmacc fma t v x).length = min v.length x.length := by
  intro v
  induction v with
  | nil => intro x; cases x <;> simp [vfmacc]
  | cons bh bt ih =>
    intro x
    cases x with
    | nil => simp [vfmacc]
    | cons xh xt => simp [vfmacc, ih xt]; omega

theorem vfmacc_get? [Inhabited α] (fma : α → α → α → α) (t : α) :
    ∀ (v x : List α) (j : ℕ), j < v.length → j < x.length →
      (vfmacc fma t v x).get? j = some (fma t (v.getD j default) (x.getD j default)) := by
  intro v
  induction v with
  | nil => intro x j hj _; simp at hj
  | cons bh bt ih =>
    intro x j hj hx
    cases x with
    | nil => simp at hx
    | cons xh xt =>
      cases j with
      | zero => simp [vfmacc, List.getD]
      | succ j' =>
        simp only [List.length_cons, Nat.succ_lt_succ_iff] at hj hx
        simpa [vfmacc, List.getD] using ih xt j' hj hx

theorem foldFmaVec_snoc (fma : α → α → α → α) (f : ℕ → α) (g : ℕ → List α) :
    ∀ (cnt k : ℕ) (acc : List α),
      foldFmaVec fma f g k (cnt + 1) acc
        = vfmacc fma (f (k + cnt)) (g (k + cnt)) (foldFmaVec fma f g k cnt acc) := by
  intro cnt
  induction cnt with
  | zero => intro k acc; simp [foldFmaVec]
  | succ cnt ih =>
    intro k acc
    have step : foldFmaVec fma f g k (cnt + 1 + 1) acc
        = foldFmaVec fma f g (k + 1) (cnt + 1) (vfmacc fma (f k) (g k) acc) := rfl
    rw [step, ih (k + 1) (vfmacc fma (f k) (g k) acc)]
    have ke : k + 1 + cnt = k + (cnt + 1) := by omega
    rw [ke]
    rfl

theorem foldFmaVec_length (fma : α → α → α → α) (f : ℕ → α) (g : ℕ → List α)
    (vl : ℕ) (hg : ∀ kk, (g kk).length = vl) :
    ∀ (cnt k : ℕ) (acc : List α), acc.length = vl →
      (foldFmaVec fma f g k cnt acc).length = vl := by
  intro cnt
  induction cnt with
  | zero => intro k acc hacc; exact hacc
  | succ cnt ih =>
    intro k acc hacc
    have : (vfmacc fma (f k) (g k) acc).length = vl := by
      rw [vfmacc_length, hg k, hacc]; omega
    exact ih (k + 1) (vfmacc fma (f k) (g k) acc) this

theorem foldFmaVec_get? [Inhabited α] (fma : α → α → α → α) (f : ℕ → α)
    (g : ℕ → List α) (vl : ℕ) (hg : ∀ kk, (g kk).length = vl) :
    ∀ (cnt k : ℕ) (acc : List α) (j : ℕ), acc.length = vl → j < vl →
      (foldFmaVec fma f g k cnt acc).get? j
        = some (dotFmaFrom fma f (fun kk => (g kk).getD j default) k cnt
            (acc.getD j default)) := by
  intro cnt
  induction cnt with
  | zero =>
    intro k acc j hacc hj
    exact get?_eq_some_getD acc j (by omega)
  | succ cnt ih =>
    intro k acc j hacc hj
    have hlen : (vfmacc fma (f k) (g k) acc).length = vl := by
      rw [vfmacc_length, hg k, hacc]; omega
    have hval : (vfmacc fma (f k) (g k) acc).getD j default
        = fma (f k) ((g k).getD j default) (acc.getD j default) := by
      apply getD_of_get?
      exact vfmacc_get? fma (f k) (g k) acc j (by rw [hg k]; omega) (by omega)
    have := ih (k + 1) (vfmacc fma (f k) (g k) acc) j hlen hj
    rw [hval] at this
    exact this

end SpecSide

section KernelSpec

variable {α : Type}

theorem loadA4_ok [Inhabited α] (a : List α) (i N : ℕ) (h : i + 3 * N < a.length) :
    loadA4 a i N = some (a.getD i default, a.getD (i + N) default,
      a.getD (i + 2 * N) default, a.getD (i + 3 * N) default) := by
  simp only [loadA4, read1_ok a i (by omega), read1_ok a (i + N) (by omega),
    read1_ok a (i + 2 * N) (by omega), read1_ok a (i + 3 * N) (by omega)]

theorem slice_init_ok [Inhabited α] (c : List α) (cOff P vl : ℕ)
    (h : cOff + 3 * P + vl ≤ c.length) :
    matmul_vec_4x4_slice_init c cOff P vl
      = some (readSeg c cOff vl, readSeg c (cOff + P) vl,
          readSeg c (cOff + 2 * P) vl, readSeg c (cOff + 3 * P) vl) := by
  simp only [matmul_vec_4x4_slice_init,
    readMany_ok c vl cOff (by omega),
    readMany_ok c vl (cOff + P) (by omega),
    readMany_ok c vl (cOff + 2 * P) (by omega),
    readMany_ok c vl (cOff + 3 * P) (by omega)]

theorem mvTail_ok (fma : α → α → α → α) (c : List α) (cOff P vl : ℕ)
    (st : MVSt α) (hvB : st.vB.length = vl)
    (h0 : st.a0.length = vl) (h1 : st.a1.length = vl)
    (h2 : st.a2.length = vl) (h3 : st.a3.length = vl)
    (hc : cOff + 3 * P + vl ≤ c.length) :
    mvTail fma c cOff P st
      = some (setMany (setMany (setMany (setMany c cOff
          (vfmacc fma st.t0 st.vB st.a0)) (cOff + P)
          (vfmacc fma st.t1 st.vB st.a1)) (cOff + 2 * P)
          (vfmacc fma st.t2 st.vB st.a2)) (cOff + 3 * P)
          (vfmacc fma st.t3 st.vB st.a3)) := by
  have w0 : (vfmacc fma st.t0 st.vB st.a0).length = vl := by
    rw [vfmacc_length, hvB, h0]; omega
  have w1 : (vfmacc fma st.t1 st.vB st.a1).length = vl := by
    rw [vfmacc_length, hvB, h1]; omega
  have w2 : (vfmacc fma st.t2 st.vB st.a2).length = vl := by
    rw [vfmacc_length, hvB, h2]; omega
  have w3 : (vfmacc fma st.t3 st.vB st.a3).length = vl := by
    rw [vfmacc_length, hvB, h3]; omega
  have l0 := setMany_length (vfmacc fma st.t0 st.vB st.a0) c cOff
  have l1 := setMany_length (vfmacc fma st.t1 st.vB st.a1)
    (setMany c cOff (vfmacc fma st.t0 st.vB st.a0)) (cOff + P)
  have l2 := setMany_length (vfmacc fma st.t2 st.vB st.a2)
    (setMany (setMany c cOff (vfmacc fma st.t0 st.vB st.a0)) (cOff + P)
      (vfmacc fma st.t1 st.vB st.a1)) (cOff + 2 * P)
  have b0 : cOff + (vfmacc fma st.t0 st.vB st.a0).length ≤ c.length := by
    rw [w0]; omega
  have b1 : (cOff + P) + (vfmacc fma st.t1 st.vB st.a1).length
      ≤ (setMany c cOff (vfmacc fma st.t0 st.vB st.a0)).length := by
    rw [w1, l0]; omega
  have b2 : (cOff + 2 * P) + (vfmacc fma st.t2 st.vB st.a2).length
      ≤ (setMany (setMany c cOff (vfmacc fma st.t0 st.vB st.a0)) (cOff + P)
          (vfmacc fma st.t1 st.vB st.a1)).length := by
    rw [w2, l1, l0]; omega
  have b3 : (cOff + 3 * P) + (vfmacc fma st.t3 st.vB st.a3).length
      ≤ (setMany (setMany (setMany c cOff (vfmacc fma st.t0 st.vB st.a0)) (cOff + P)
          (vfmacc fma st.t1 st.vB st.a1)) (cOff + 2 * P)
          (vfmacc fma st.t2 st.vB st.a2)).length := by
    rw [w3, l2, l1, l0]; omega
  simp only [mvTail, writeMany_ok _ _ _ b0, writeMany_ok _ _ _ b1,
    writeMany_ok _ _ _ b2, writeMany_ok _ _ _ b3]

theorem mvLoop_step2 (fma : α → α → α → α) (a b : List α) (aOff N P vl : ℕ)
    (r n : ℕ) (t0 t1 t2 t3 : α) (v16 v20 : List α)
    (acc0 acc1 acc2 acc3 : List α) (bOff : ℕ) :
    mvLoop fma a b aOff N P vl (r + 1 + 1) n t0 t1 t2 t3 v16 v20
        acc0 acc1 acc2 acc3 bOff
      = match readMany b bOff vl with
        | none => none
        | some v20X =>
          match loadA4 a (aOff + (n + 1)) N with
          | none => none
          | some (t0X, t1X, t2X, t3X) =>
            if n + 1 = N - 1 then
              some ⟨vfmacc fma t0 v16 acc0, vfmacc fma t1 v16 acc1,
                vfmacc fma t2 v16 acc2, vfmacc fma t3 v16 acc3,
                t0X, t1X, t2X, t3X, v20X⟩
            else
              match readMany b (bOff + P) vl with
              | none => none
              | some v16X =>
                match loadA4 a (aOff + (n + 2)) N with
                | none => none
                | some (t0Y, t1Y, t2Y, t3Y) =>
                  mvLoop fma a b aOff N P vl r (n + 2) t0Y t1Y t2Y t3Y
                    v16X v20X
                    (vfmacc fma t0X v20X (vfmacc fma t0 v16 acc0))
                    (vfmacc fma t1X v20X (vfmacc fma t1 v16 acc1))
                    (vfmacc fma t2X v20X (vfmacc fma t2 v16 acc2))
                    (vfmacc fma t3X v20X (vfmacc fma t3 v16 acc3))
                    (bOff + 2 * P) := by
  cases hr : readMany b bOff vl with
  | none => simp [mvLoop, hr]
  | some v20X =>
    cases hl : loadA4 a (aOff + (n + 1)) N with
    | none => simp [mvLoop, hr, hl]
    | some tq =>
      obtain ⟨t0X, t1X, t2X, t3X⟩ := tq
      by_cases hbr : n + 1 = N - 1
      · simp [mvLoop, hr, hl, if_pos hbr]
      · cases hr2 : readMany b (bOff + P) vl with
        | none => simp [mvLoop, hr, hl, hbr, hr2]
        | some v16X =>
          cases hl2 : loadA4 a (aOff + (n + 2)) N with
          | none => simp [mvLoop, hr, hl, hbr, hr2, hl2]
          | some tq2 =>
            obtain ⟨t0Y, t1Y, t2Y, t3Y⟩ := tq2
            simp [mvLoop, hr, hl, hbr, hr2, hl2]

/-- Invariant of the software-pipelined reduction loop for even `N = 2*m`:
entering the loop top at step `n = 2*j` (counter `rem = N - n = 2*d + 2`,
where `j + d + 1 = m`) with the scalar registers holding column `2*j` of
the A block, `v16` holding row `2*j` of the B chunk and the write pointer
past row `2*j`, the loop performs exactly the ascending reduction steps
`2*j, …, N-2` on every accumulator, and exits through the `break` with the
final scalar/vector pair (`column/row N-1`) loaded and never touched by a
further load. -/
theorem mvLoop_spec [Inhabited α] (fma : α → α → α → α) (a b : List α)
    (aOff bOff0 N P vl : ℕ) (m : ℕ) (hN : N = 2 * m)
    (ha : aOff + 4 * N ≤ a.length)
    (hb : bOff0 + (N - 1) * P + vl ≤ b.length) :
    ∀ (d j : ℕ), j + d + 1 = m →
      ∀ (v20 acc0 acc1 acc2 acc3 : List α),
        mvLoop fma a b aOff N P vl (2 * d + 2) (2 * j)
          (a.getD (aOff + 2 * j) default)
          (a.getD (aOff + 2 * j + N) default)
          (a.getD (aOff + 2 * j + 2 * N) default)
          (a.getD (aOff + 2 * j + 3 * N) default)
          (readSeg b (bOff0 + 2 * j * P) vl) v20
          acc0 acc1 acc2 acc3 (bOff0 + (2 * j + 1) * P)
        = some ⟨
            foldFmaVec fma (fun k => a.getD (aOff + k) default)
              (fun k => readSeg b (bOff0 + k * P) vl) (2 * j) (2 * d + 1) acc0,
            foldFmaVec fma (fun k => a.getD (aOff + k + N) default)
              (fun k => readSeg b (bOff0 + k * P) vl) (2 * j) (2 * d + 1) acc1,
            foldFmaVec fma (fun k => a.getD (aOff + k + 2 * N) default)
              (fun k => readSeg b (bOff0 + k * P) vl) (2 * j) (2 * d + 1) acc2,
            foldFmaVec fma (fun k => a.getD (aOff + k + 3 * N) default)
              (fun k => readSeg b (bOff0 + k * P) vl) (2 * j) (2 * d + 1) acc3,
            a.getD (aOff + (N - 1)) default,
            a.getD (aOff + (N - 1) + N) default,
            a.getD (aOff + (N - 1) + 2 * N) default,
            a.getD (aOff + (N - 1) + 3 * N) default,
            readSeg b (bOff0 + (N - 1) * P) vl⟩ := by
  intro d
  induction d with
  | zero =>
    intro j hj v20 acc0 acc1 acc2 acc3
    have hjm : j + 1 = m := by omega
    have hbnd1 : (bOff0 + (2 * j + 1) * P) + vl ≤ b.length := by
      have hmul : (2 * j + 1) * P ≤ (N - 1) * P :=
        Nat.mul_le_mul_right P (by omega)
      omega
    have habnd1 : (aOff + (2 * j + 1)) + 3 * N < a.length := by omega
    rw [(show 2 * 0 + 2 = 0 + 1 + 1 from by omega)]
    rw [mvLoop_step2]
    have hNm1 : N - 1 = 2 * j + 1 := by omega
    rw [hNm1]
    simp only [readMany_ok b vl (bOff0 + (2 * j + 1) * P) hbnd1,
      loadA4_ok a (aOff + (2 * j + 1)) N habnd1,
      if_pos (rfl : 2 * j + 1 = 2 * j + 1)]
    rw [(show 2 * 0 + 1 = 0 + 1 from by omega)]
    rfl
  | succ d ih =>
    intro j hj v20 acc0 acc1 acc2 acc3
    have hbnd1 : (bOff0 + (2 * j + 1) * P) + vl ≤ b.length := by
      have hmul : (2 * j + 1) * P ≤ (N - 1) * P :=
        Nat.mul_le_mul_right P (by omega)
      omega
    have habnd1 : (aOff + (2 * j + 1)) + 3 * N < a.length := by omega
    have hbr : ¬(2 * j + 1 = N - 1) := by omega
    have e2 : bOff0 + (2 * j + 1) * P + P = bOff0 + (2 * j + 2) * P := by ring
    have hbnd2 : (bOff0 + (2 * j + 2) * P) + vl ≤ b.length := by
      have hmul : (2 * j + 2) * P ≤ (N - 1) * P :=
        Nat.mul_le_mul_right P (by omega)
      omega
    have habnd2 : (aOff + (2 * j + 2)) + 3 * N < a.length := by omega
    have e3 : bOff0 + (2 * j + 1) * P + 2 * P = bOff0 + (2 * j + 2 + 1) * P := by
      ring
    rw [(show 2 * (d + 1) + 2 = 2 * d + 2 + 1 + 1 from by omega)]
    rw [mvLoop_step2]
    simp only [readMany_ok b vl (bOff0 + (2 * j + 1) * P) hbnd1,
      loadA4_ok a (aOff + (2 * j + 1)) N habnd1, if_neg hbr, e2,
      readMany_ok b vl (bOff0 + (2 * j + 2) * P) hbnd2,
      loadA4_ok a (aOff + (2 * j + 2)) N habnd2]
    have IH := ih (j + 1) (by omega) (readSeg b (bOff0 + (2 * j + 1) * P) vl)
      (vfmacc fma (a.getD (aOff + (2 * j + 1)) default)
        (readSeg b (bOff0 + (2 * j + 1) * P) vl)
        (vfmacc fma (a.getD (aOff + 2 * j) default)
          (readSeg b (bOff0 + 2 * j * P) vl) acc0))
      (vfmacc fma (a.getD (aOff + (2 * j + 1) + N) default)
        (readSeg b (bOff0 + (2 * j + 1) * P) vl)
        (vfmacc fma (a.getD (aOff + 2 * j + N) default)
          (readSeg b (bOff0 + 2 * j * P) vl) acc1))
      (vfmacc fma (a.getD (aOff + (2 * j + 1) + 2 * N) default)
        (readSeg b (bOff0 + (2 * j + 1) * P) vl)
        (vfmacc fma (a.getD (aOff + 2 * j + 2 * N) default)
          (readSeg b (bOff0 + 2 * j * P) vl) acc2))
      (vfmacc fma (a.getD (aOff + (2 * j + 1) + 3 * N) default)
        (readSeg b (bOff0 + (2 * j + 1) * P) vl)
        (vfmacc fma (a.getD (aOff + 2 * j + 3 * N) default)
          (readSeg b (bOff0 + 2 * j * P) vl) acc3))
    rw [(show 2 * (j + 1) = 2 * j + 2 from by omega)] at IH
    rw [e3]
    rw [IH]
    have row0 : foldFmaVec fma (fun k => a.getD (aOff + k) default)
        (fun k => readSeg b (bOff0 + k * P) vl) (2 * j) (2 * (d + 1) + 1) acc0
        = foldFmaVec fma (fun k => a.getD (aOff + k) default)
          (fun k => readSeg b (bOff0 + k * P) vl) (2 * j + 2) (2 * d + 1)
          (vfmacc fma (a.getD (aOff + (2 * j + 1)) default)
            (readSeg b (bOff0 + (2 * j + 1) * P) vl)
            (vfmacc fma (a.getD (aOff + 2 * j) default)
              (readSeg b (bOff0 + 2 * j * P) vl) acc0)) := by
      rw [(show 2 * (d + 1) + 1 = 2 * d + 1 + 1 + 1 from by omega)]
      rfl
    have row1 : foldFmaVec fma (fun k => a.getD (aOff + k + N) default)
        (fun k => readSeg b (bOff0 + k * P) vl) (2 * j) (2 * (d + 1) + 1) acc1
        = foldFmaVec fma (fun k => a.getD (aOff + k + N) default)
          (fun k => readSeg b (bOff0 + k * P) vl) (2 * j + 2) (2 * d + 1)
          (vfmacc fma (a.getD (aOff + (2 * j + 1) + N) default)
            (readSeg b (bOff0 + (2 * j + 1) * P) vl)
            (vfmacc fma (a.getD (aOff + 2 * j + N) default)
              (readSeg b (bOff0 + 2 * j * P) vl) acc1)) := by
      rw [(show 2 * (d + 1) + 1 = 2 * d + 1 + 1 + 1 from by omega)]
      rfl
    have row2 : foldFmaVec fma (fun k => a.getD (aOff + k + 2 * N) default)
        (fun k => readSeg b (bOff0 + k * P) vl) (2 * j) (2 * (d + 1) + 1) acc2
        = foldFmaVec fma (fun k => a.getD (aOff + k + 2 * N) default)
          (fun k => readSeg b (bOff0 + k * P) vl) (2 * j + 2) (2 * d + 1)
          (vfmacc fma (a.getD (aOff + (2 * j + 1) + 2 * N) default)
            (readSeg b (bOff0 + (2 * j + 1) * P) vl)
            (vfmacc fma (a.getD (aOff + 2 * j + 2 * N) default)
              (readSeg b (bOff0 + 2 * j * P) vl) acc2)) := by
      rw [(show 2 * (d + 1) + 1 = 2 * d + 1 + 1 + 1 from by omega)]
      rfl
    have row3 : foldFmaVec fma (fun k => a.getD (aOff + k + 3 * N) default)
        (fun k => readSeg b (bOff0 + k * P) vl) (2 * j) (2 * (d + 1) + 1) acc3
        = foldFmaVec fma (fun k => a.getD (aOff + k + 3 * N) default)
          (fun k => readSeg b (bOff0 + k * P) vl) (2 * j + 2) (2 * d + 1)
          (vfmacc fma (a.getD (aOff + (2 * j + 1) + 3 * N) default)
            (readSeg b (bOff0 + (2 * j + 1) * P) vl)
            (vfmacc fma (a.getD (aOff + 2 * j + 3 * N) default)
              (readSeg b (bOff0 + 2 * j * P) vl) acc3)) := by
      rw [(show 2 * (d + 1) + 1 = 2 * d + 1 + 1 + 1 from by omega)]
      rfl
    rw [row0, row1, row2, row3]


/-- Full characterization of `matmul_vec_4x4` for even `N = 2*m ≥ 2` and
in-bounds blocks: the kernel succeeds and stores, for row `i` of the
group, the strictly ascending FMA reduction over all `N` steps applied to
the incoming accumulator `acc_i`. -/
theorem matmul_vec_4x4_spec [Inhabited α] (fma : α → α → α → α)
    (c a b : List α) (cOff aOff bOff N P vl m : ℕ)
    (hN : N = 2 * m) (hm : 1 ≤ m)
    (ha : aOff + 4 * N ≤ a.length)
    (hb : bOff + (N - 1) * P + vl ≤ b.length)
    (hc : cOff + 3 * P + vl ≤ c.length)
    (acc0 acc1 acc2 acc3 : List α)
    (l0 : acc0.length = vl) (l1 : acc1.length = vl)
    (l2 : acc2.length = vl) (l3 : acc3.length = vl) :
    matmul_vec_4x4 fma c cOff a aOff b bOff N P vl acc0 acc1 acc2 acc3
      = some (setMany (setMany (setMany (setMany c cOff
          (foldFmaVec fma (fun k => a.getD (aOff + k) default)
            (fun k => readSeg b (bOff + k * P) vl) 0 N acc0)) (cOff + P)
          (foldFmaVec fma (fun k => a.getD (aOff + k + N) default)
            (fun k => readSeg b (bOff + k * P) vl) 0 N acc1)) (cOff + 2 * P)
          (foldFmaVec fma (fun k => a.getD (aOff + k + 2 * N) default)
            (fun k => readSeg b (bOff + k * P) vl) 0 N acc2)) (cOff + 3 * P)
          (foldFmaVec fma (fun k => a.getD (aOff + k + 3 * N) default)
            (fun k => readSeg b (bOff + k * P) vl) 0 N acc3)) := by
  have hN1 : 1 ≤ N := by omega
  have MS := mvLoop_spec fma a b aOff bOff N P vl m hN ha hb (m - 1) 0
    (by omega) [] acc0 acc1 acc2 acc3
  rw [(show 2 * (m - 1) + 2 = N from by omega),
    (show 2 * (m - 1) + 1 = N - 1 from by omega)] at MS
  simp only [Nat.mul_zero, Nat.add_zero, Nat.zero_mul, Nat.zero_add,
    Nat.one_mul] at MS
  simp only [matmul_vec_4x4,
    readMany_ok b vl bOff (by omega),
    loadA4_ok a aOff N (by omega), MS]
  have hg : ∀ kk, (readSeg b (bOff + kk * P) vl).length = vl := fun kk =>
    readSeg_length b vl (bOff + kk * P)
  have f0l : (foldFmaVec fma (fun k => a.getD (aOff + k) default)
      (fun k => readSeg b (bOff + k * P) vl) 0 (N - 1) acc0).length = vl :=
    foldFmaVec_length fma _ _ vl hg (N - 1) 0 acc0 l0
  have f1l : (foldFmaVec fma (fun k => a.getD (aOff + k + N) default)
      (fun k => readSeg b (bOff + k * P) vl) 0 (N - 1) acc1).length = vl :=
    foldFmaVec_length fma _ _ vl hg (N - 1) 0 acc1 l1
  have f2l : (foldFmaVec fma (fun k => a.getD (aOff + k + 2 * N) default)
      (fun k => readSeg b (bOff + k * P) vl) 0 (N - 1) acc2).length = vl :=
    foldFmaVec_length fma _ _ vl hg (N - 1) 0 acc2 l2
  have f3l : (foldFmaVec fma (fun k => a.getD (aOff + k + 3 * N) default)
      (fun k => readSeg b (bOff + k * P) vl) 0 (N - 1) acc3).length = vl :=
    foldFmaVec_length fma _ _ vl hg (N - 1) 0 acc3 l3
  rw [mvTail_ok fma c cOff P vl _ (readSeg_length b vl (bOff + (N - 1) * P))
    f0l f1l f2l f3l hc]
  have snoc0 := foldFmaVec_snoc fma (fun k => a.getD (aOff + k) default)
    (fun k => readSeg b (bOff + k * P) vl) (N - 1) 0 acc0
  have snoc1 := foldFmaVec_snoc fma (fun k => a.getD (aOff + k + N) default)
    (fun k => readSeg b (bOff + k * P) vl) (N - 1) 0 acc1
  have snoc2 := foldFmaVec_snoc fma (fun k => a.getD (aOff + k + 2 * N) default)
    (fun k => readSeg b (bOff + k * P) vl) (N - 1) 0 acc2
  have snoc3 := foldFmaVec_snoc fma (fun k => a.getD (aOff + k + 3 * N) default)
    (fun k => readSeg b (bOff + k * P) vl) (N - 1) 0 acc3
  rw [(show N - 1 + 1 = N from by omega)] at snoc0 snoc1 snoc2 snoc3
  simp only [Nat.zero_add] at snoc0 snoc1 snoc2 snoc3
  rw [snoc0, snoc1, snoc2, snoc3]

end KernelSpec

section Elementwise

variable {α : Type}

theorem readSeg_getD [Inhabited α] (l : List α) (n i j : ℕ) (hj : j < n) :
    (readSeg l i n).getD j default = l.getD (i + j) default :=
  getD_of_get? (readSeg l i n) j (l.getD (i + j) default) (readSeg_get? l n i j hj)

theorem dotFmaFrom_congr (fma : α → α → α → α) (f fX g gX : ℕ → α)
    (hf : ∀ k, f k = fX k) (hg : ∀ k, g k = gX k) :
    ∀ (cnt k : ℕ) (acc : α),
      dotFmaFrom fma f g k cnt acc = dotFmaFrom fma fX gX k cnt acc := by
  intro cnt
  induction cnt with
  | zero => intro k acc; rfl
  | succ cnt ih =>
    intro k acc
    simp only [dotFmaFrom, hf k, hg k, ih (k + 1)]

theorem quad_get?_out (c : List α) (cOff P vl : ℕ) (w0 w1 w2 w3 : List α)
    (hw0 : w0.length = vl) (hw1 : w1.length = vl)
    (hw2 : w2.length = vl) (hw3 : w3.length = vl) (idx : ℕ)
    (h0 : idx < cOff ∨ cOff + vl ≤ idx)
    (h1 : idx < cOff + P ∨ cOff + P + vl ≤ idx)
    (h2 : idx < cOff + 2 * P ∨ cOff + 2 * P + vl ≤ idx)
    (h3 : idx < cOff + 3 * P ∨ cOff + 3 * P + vl ≤ idx) :
    (setMany (setMany (setMany (setMany c cOff w0) (cOff + P) w1)
      (cOff + 2 * P) w2) (cOff + 3 * P) w3).get? idx = c.get? idx := by
  have s3 : (setMany (setMany (setMany (setMany c cOff w0) (cOff + P) w1)
      (cOff + 2 * P) w2) (cOff + 3 * P) w3).get? idx
      = (setMany (setMany (setMany c cOff w0) (cOff + P) w1)
        (cOff + 2 * P) w2).get? idx := by
    rcases h3 with h | h
    · exact setMany_get?_lt w3 _ (cOff + 3 * P) idx h
    · exact setMany_get?_ge w3 _ (cOff + 3 * P) idx (by omega)
  have s2 : (setMany (setMany (setMany c cOff w0) (cOff + P) w1)
      (cOff + 2 * P) w2).get? idx
      = (setMany (setMany c cOff w0) (cOff + P) w1).get? idx := by
    rcases h2 with h | h
    · exact setMany_get?_lt w2 _ (cOff + 2 * P) idx h
    · exact setMany_get?_ge w2 _ (cOff + 2 * P) idx (by omega)
  have s1 : (setMany (setMany c cOff w0) (cOff + P) w1).get? idx
      = (setMany c cOff w0).get? idx := by
    rcases h1 with h | h
    · exact setMany_get?_lt w1 _ (cOff + P) idx h
    · exact setMany_get?_ge w1 _ (cOff + P) idx (by omega)
  have s0 : (setMany c cOff w0).get? idx = c.get? idx := by
    rcases h0 with h | h
    · exact setMany_get?_lt w0 c cOff idx h
    · exact setMany_get?_ge w0 c cOff idx (by omega)
  rw [s3, s2, s1, s0]

theorem quad_get?_r0 (c : List α) (cOff P vl : ℕ) (w0 w1 w2 w3 : List α)
    (hw0 : w0.length = vl) (hvlP : vl ≤ P) (j : ℕ) (hj : j < vl)
    (hc : cOff + 3 * P + vl ≤ c.length) :
    (setMany (setMany (setMany (setMany c cOff w0) (cOff + P) w1)
      (cOff + 2 * P) w2) (cOff + 3 * P) w3).get? (cOff + j) = w0.get? j := by
  rw [setMany_get?_lt w3 _ (cOff + 3 * P) (cOff + j) (by omega),
    setMany_get?_lt w2 _ (cOff + 2 * P) (cOff + j) (by omega),
    setMany_get?_lt w1 _ (cOff + P) (cOff + j) (by omega)]
  exact setMany_get?_in w0 c cOff j (by omega) (by omega)

theorem quad_get?_r1 (c : List α) (cOff P vl : ℕ) (w0 w1 w2 w3 : List α)
    (hw0 : w0.length = vl) (hw1 : w1.length = vl) (hvlP : vl ≤ P)
    (j : ℕ) (hj : j < vl) (hc : cOff + 3 * P + vl ≤ c.length) :
    (setMany (setMany (setMany (setMany c cOff w0) (cOff + P) w1)
      (cOff + 2 * P) w2) (cOff + 3 * P) w3).get? (cOff + P + j) = w1.get? j := by
  rw [setMany_get?_lt w3 _ (cOff + 3 * P) (cOff + P + j) (by omega),
    setMany_get?_lt w2 _ (cOff + 2 * P) (cOff + P + j) (by omega)]
  exact setMany_get?_in w1 _ (cOff + P) j (by omega)
    (by rw [setMany_length]; omega)

theorem quad_get?_r2 (c : List α) (cOff P vl : ℕ) (w0 w1 w2 w3 : List α)
    (hw1 : w1.length = vl) (hw2 : w2.length = vl) (hvlP : vl ≤ P)
    (j : ℕ) (hj : j < vl) (hc : cOff + 3 * P + vl ≤ c.length) :
    (setMany (setMany (setMany (setMany c cOff w0) (cOff + P) w1)
      (cOff + 2 * P) w2) (cOff + 3 * P) w3).get? (cOff + 2 * P + j)
      = w2.get? j := by
  rw [setMany_get?_lt w3 _ (cOff + 3 * P) (cOff + 2 * P + j) (by omega)]
  exact setMany_get?_in w2 _ (cOff + 2 * P) j (by omega)
    (by rw [setMany_length, setMany_length]; omega)

theorem quad_get?_r3 (c : List α) (cOff P vl : ℕ) (w0 w1 w2 w3 : List α)
    (hw2 : w2.length = vl) (hw3 : w3.length = vl) (hvlP : vl ≤ P)
    (j : ℕ) (hj : j < vl) (hc : cOff + 3 * P + vl ≤ c.length) :
    (setMany (setMany (setMany (setMany c cOff w0) (cOff + P) w1)
      (cOff + 2 * P) w2) (cOff + 3 * P) w3).get? (cOff + 3 * P + j)
      = w3.get? j := by
  exact setMany_get?_in w3 _ (cOff + 3 * P) j (by omega)
    (by rw [setMany_length, setMany_length, setMany_length]; omega)

end Elementwise

section Driver

variable {α : Type}

/-- Characterization of one row-group iteration of the driver's row loop
for even `N`: the 4×`vl` block of C at rows `m0..m0+3`, columns
`p..p+vl-1` receives the reference ascending FMA reduction values, and
every other element of C is untouched. -/
theorem mBody_spec [Inhabited α] (fma : α → α → α → α) (a b c : List α)
    (M N P p vl m0 mh : ℕ) (hN : N = 2 * mh) (hmh : 1 ≤ mh)
    (hA : a.length = M * N) (hB : b.length = N * P) (hC : c.length = M * P)
    (hm4 : m0 + 4 ≤ M) (hpv : p + vl ≤ P) :
    ∃ cX, mBody fma a b c p vl m0 N P = some cX ∧ cX.length = c.length ∧
      ∀ r q, r < M → q < P →
        cX.get? (r * P + q)
          = if m0 ≤ r ∧ r < m0 + 4 ∧ p ≤ q ∧ q < p + vl
            then some (refC fma c a b N P r q)
            else c.get? (r * P + q) := by
  have hm4P : (m0 + 4) * P ≤ M * P := Nat.mul_le_mul_right P hm4
  have em0P : (m0 + 4) * P = m0 * P + 4 * P := by ring
  have hm4N : (m0 + 4) * N ≤ M * N := Nat.mul_le_mul_right N hm4
  have em0N : (m0 + 4) * N = m0 * N + 4 * N := by ring
  have eNP : N * P = (N - 1) * P + P := by
    have h1 : N - 1 + 1 = N := by omega
    calc N * P = (N - 1 + 1) * P := by rw [h1]
    _ = (N - 1) * P + P := by ring
  have hcB : (p + m0 * P) + 3 * P + vl ≤ c.length := by rw [hC]; omega
  have haB : m0 * N + 4 * N ≤ a.length := by rw [hA]; omega
  have hbB : p + (N - 1) * P + vl ≤ b.length := by rw [hB]; omega
  have hsi := slice_init_ok c (p + m0 * P) P vl hcB
  have hmv := matmul_vec_4x4_spec fma c a b (p + m0 * P) (m0 * N) p N P vl mh
    hN hmh haB hbB hcB
    (readSeg c (p + m0 * P) vl) (readSeg c (p + m0 * P + P) vl)
    (readSeg c (p + m0 * P + 2 * P) vl) (readSeg c (p + m0 * P + 3 * P) vl)
    (readSeg_length c vl (p + m0 * P)) (readSeg_length c vl (p + m0 * P + P))
    (readSeg_length c vl (p + m0 * P + 2 * P))
    (readSeg_length c vl (p + m0 * P + 3 * P))
  have hg : ∀ kk, (readSeg b (p + kk * P) vl).length = vl := fun kk =>
    readSeg_length b vl (p + kk * P)
  have lW0 : (foldFmaVec fma (fun k => a.getD (m0 * N + k) default)
      (fun k => readSeg b (p + k * P) vl) 0 N
      (readSeg c (p + m0 * P) vl)).length = vl :=
    foldFmaVec_length fma _ _ vl hg N 0 _ (readSeg_length c vl (p + m0 * P))
  have lW1 : (foldFmaVec fma (fun k => a.getD (m0 * N + k + N) default)
      (fun k => readSeg b (p + k * P) vl) 0 N
      (readSeg c (p + m0 * P + P) vl)).length = vl :=
    foldFmaVec_length fma _ _ vl hg N 0 _ (readSeg_length c vl (p + m0 * P + P))
  have lW2 : (foldFmaVec fma (fun k => a.getD (m0 * N + k + 2 * N) default)
      (fun k => readSeg b (p + k * P) vl) 0 N
      (readSeg c (p + m0 * P + 2 * P) vl)).length = vl :=
    foldFmaVec_length fma _ _ vl hg N 0 _
      (readSeg_length c vl (p + m0 * P + 2 * P))
  have lW3 : (foldFmaVec fma (fun k => a.getD (m0 * N + k + 3 * N) default)
      (fun k => readSeg b (p + k * P) vl) 0 N
      (readSeg c (p + m0 * P + 3 * P) vl)).length = vl :=
    foldFmaVec_length fma _ _ vl hg N 0 _
      (readSeg_length c vl (p + m0 * P + 3 * P))
  refine ⟨setMany
        (setMany
          (setMany
            (setMany c (p + m0 * P)
              (foldFmaVec fma (fun k => a.getD (m0 * N + k) default)
                (fun k => readSeg b (p + k * P) vl) 0 N
                (readSeg c (p + m0 * P) vl)))
            (p + m0 * P + P)
            (foldFmaVec fma (fun k => a.getD (m0 * N + k + N) default)
              (fun k => readSeg b (p + k * P) vl) 0 N
              (readSeg c (p + m0 * P + P) vl)))
          (p + m0 * P + 2 * P)
          (foldFmaVec fma (fun k => a.getD (m0 * N + k + 2 * N) default)
            (fun k => readSeg b (p + k * P) vl) 0 N
            (readSeg c (p + m0 * P + 2 * P) vl)))
        (p + m0 * P + 3 * P)
        (foldFmaVec fma (fun k => a.getD (m0 * N + k + 3 * N) default)
          (fun k => readSeg b (p + k * P) vl) 0 N
          (readSeg c (p + m0 * P + 3 * P) vl)), ?_, ?_, ?_⟩
  · simp only [mBody, hsi, hmv]
  · simp only [setMany_length]
  · intro r q hr hq
    by_cases hin : m0 ≤ r ∧ r < m0 + 4 ∧ p ≤ q ∧ q < p + vl
    · rw [if_pos hin]
      obtain ⟨hin1, hin2, hin3, hin4⟩ := hin
      have hgq : ∀ k, (readSeg b (p + k * P) vl).getD (q - p) default
          = b.getD (k * P + q) default := by
        intro k
        rw [readSeg_getD b vl (p + k * P) (q - p) (by omega)]
        congr 1
        omega
      rcases (by omega : r = m0 ∨ r = m0 + 1 ∨ r = m0 + 2 ∨ r = m0 + 3) with
        hcase | hcase | hcase | hcase
      · rw [hcase]
        have eidx : m0 * P + q = (p + m0 * P) + (q - p) := by omega
        rw [eidx, quad_get?_r0 c (p + m0 * P) P vl _ _ _ _ lW0 (by omega)
          (q - p) (by omega) hcB]
        rw [foldFmaVec_get? fma _ _ vl hg N 0 _ (q - p)
          (readSeg_length c vl (p + m0 * P)) (by omega)]
        have hinit : (readSeg c (p + m0 * P) vl).getD (q - p) default
            = c.getD (m0 * P + q) default := by
          rw [readSeg_getD c vl (p + m0 * P) (q - p) (by omega)]
          congr 1
          omega
        rw [hinit]
        simp only [refC, dotFma]
        exact congrArg some (dotFmaFrom_congr fma _ _ _ _
          (fun k => rfl) hgq N 0 _)
      · rw [hcase]
        have eidx : (m0 + 1) * P + q = (p + m0 * P) + P + (q - p) := by
          have e1 : (m0 + 1) * P = m0 * P + P := by ring
          omega
        rw [eidx, quad_get?_r1 c (p + m0 * P) P vl _ _ _ _ lW0 lW1 (by omega)
          (q - p) (by omega) hcB]
        rw [foldFmaVec_get? fma _ _ vl hg N 0 _ (q - p)
          (readSeg_length c vl (p + m0 * P + P)) (by omega)]
        have hinit : (readSeg c (p + m0 * P + P) vl).getD (q - p) default
            = c.getD ((m0 + 1) * P + q) default := by
          rw [readSeg_getD c vl (p + m0 * P + P) (q - p) (by omega)]
          congr 1
          have e1 : (m0 + 1) * P = m0 * P + P := by ring
          omega
        rw [hinit]
        simp only [refC, dotFma]
        refine congrArg some (dotFmaFrom_congr fma _ _ _ _ ?_ hgq N 0 _)
        intro k
        congr 1
        have e1 : (m0 + 1) * N = m0 * N + N := by ring
        omega
      · rw [hcase]
        have eidx : (m0 + 2) * P + q = (p + m0 * P) + 2 * P + (q - p) := by
          have e1 : (m0 + 2) * P = m0 * P + 2 * P := by ring
          omega
        rw [eidx, quad_get?_r2 c (p + m0 * P) P vl _ _ _ _ lW1 lW2 (by omega)
          (q - p) (by omega) hcB]
        rw [foldFmaVec_get? fma _ _ vl hg N 0 _ (q - p)
          (readSeg_length c vl (p + m0 * P + 2 * P)) (by omega)]
        have hinit : (readSeg c (p + m0 * P + 2 * P) vl).getD (q - p) default
            = c.getD ((m0 + 2) * P + q) default := by
          rw [readSeg_getD c vl (p + m0 * P + 2 * P) (q - p) (by omega)]
          congr 1
          have e1 : (m0 + 2) * P = m0 * P + 2 * P := by ring
          omega
        rw [hinit]
        simp only [refC, dotFma]
        refine congrArg some (dotFmaFrom_congr fma _ _ _ _ ?_ hgq N 0 _)
        intro k
        congr 1
        have e1 : (m0 + 2) * N = m0 * N + 2 * N := by ring
        omega
      · rw [hcase]
        have eidx : (m0 + 3) * P + q = (p + m0 * P) + 3 * P + (q - p) := by
          have e1 : (m0 + 3) * P = m0 * P + 3 * P := by ring
          omega
        rw [eidx, quad_get?_r3 c (p + m0 * P) P vl _ _ _ _ lW2 lW3 (by omega)
          (q - p) (by omega) hcB]
        rw [foldFmaVec_get? fma _ _ vl hg N 0 _ (q - p)
          (readSeg_length c vl (p + m0 * P + 3 * P)) (by omega)]
        have hinit : (readSeg c (p + m0 * P + 3 * P) vl).getD (q - p) default
            = c.getD ((m0 + 3) * P + q) default := by
          rw [readSeg_getD c vl (p + m0 * P + 3 * P) (q - p) (by omega)]
          congr 1
          have e1 : (m0 + 3) * P = m0 * P + 3 * P := by ring
          omega
        rw [hinit]
        simp only [refC, dotFma]
        refine congrArg some (dotFmaFrom_congr fma _ _ _ _ ?_ hgq N 0 _)
        intro k
        congr 1
        have e1 : (m0 + 3) * N = m0 * N + 3 * N := by ring
        omega
    · rw [if_neg hin]
      by_cases hrlt : r < m0
      · have h1 : (r + 1) * P ≤ m0 * P := Nat.mul_le_mul_right P (by omega)
        have h2 : (r + 1) * P = r * P + P := by ring
        exact quad_get?_out c (p + m0 * P) P vl _ _ _ _ lW0 lW1 lW2 lW3
          (r * P + q) (by omega) (by omega) (by omega) (by omega)
      · by_cases hrge : m0 + 4 ≤ r
        · have h1 : (m0 + 4) * P ≤ r * P := Nat.mul_le_mul_right P hrge
          exact quad_get?_out c (p + m0 * P) P vl _ _ _ _ lW0 lW1 lW2 lW3
            (r * P + q) (by omega) (by omega) (by omega) (by omega)
        · have hqout : q < p ∨ p + vl ≤ q := by omega
          rcases (by omega : r = m0 ∨ r = m0 + 1 ∨ r = m0 + 2 ∨ r = m0 + 3)
            with hcase | hcase | hcase | hcase <;> rw [hcase]
          · exact quad_get?_out c (p + m0 * P) P vl _ _ _ _ lW0 lW1 lW2 lW3
              (m0 * P + q) (by omega) (by omega) (by omega) (by omega)
          · have e1 : (m0 + 1) * P = m0 * P + P := by ring
            exact quad_get?_out c (p + m0 * P) P vl _ _ _ _ lW0 lW1 lW2 lW3
              ((m0 + 1) * P + q) (by omega) (by omega) (by omega) (by omega)
          · have e1 : (m0 + 2) * P = m0 * P + 2 * P := by ring
            exact quad_get?_out c (p + m0 * P) P vl _ _ _ _ lW0 lW1 lW2 lW3
              ((m0 + 2) * P + q) (by omega) (by omega) (by omega) (by omega)
          · have e1 : (m0 + 3) * P = m0 * P + 3 * P := by ring
            exact quad_get?_out c (p + m0 * P) P vl _ _ _ _ lW0 lW1 lW2 lW3
              ((m0 + 3) * P + q) (by omega) (by omega) (by omega) (by omega)

theorem mLoop_zero (fma : α → α → α → α) (a b : List α) (p vl N P m : ℕ)
    (c : List α) : mLoop fma a b p vl N P 0 m c = some c := rfl

theorem mLoop_step (fma : α → α → α → α) (a b : List α) (p vl N P r m : ℕ)
    (c : List α) :
    mLoop fma a b p vl N P (r + 4) m c
      = match mBody fma a b c p vl m N P with
        | none => none
        | some cX => mLoop fma a b p vl N P r (m + 4) cX := by
  cases hbo : mBody fma a b c p vl m N P with
  | none => simp [mLoop, hbo]
  | some cX => simp [mLoop, hbo]

/-- Characterization of the row loop over a whole column chunk for even
`N`: starting at row base `m0` with `M - m0 = 4*g` rows remaining, every
element in rows `≥ m0` and chunk columns `p ≤ q < p + vl` receives the
reference reduction value computed from the entry buffer, and everything
else is untouched. -/
theorem mLoop_spec [Inhabited α] (fma : α → α → α → α) (a b : List α)
    (M N P p vl mh : ℕ) (hN : N = 2 * mh) (hmh : 1 ≤ mh)
    (hA : a.length = M * N) (hB : b.length = N * P) (hpv : p + vl ≤ P) :
    ∀ (g m0 : ℕ) (c : List α), M = m0 + 4 * g → c.length = M * P →
      ∃ cX, mLoop fma a b p vl N P (4 * g) m0 c = some cX
        ∧ cX.length = M * P
        ∧ ∀ r q, r < M → q < P →
            cX.get? (r * P + q)
              = if m0 ≤ r ∧ p ≤ q ∧ q < p + vl
                then some (refC fma c a b N P r q)
                else c.get? (r * P + q) := by
  intro g
  induction g with
  | zero =>
    intro m0 c hM hC
    refine ⟨c, ?_, hC, ?_⟩
    · rw [(show 4 * 0 = 0 from by omega), mLoop_zero]
    · intro r q hr hq
      rw [if_neg (by omega)]
  | succ g ih =>
    intro m0 c hM hC
    obtain ⟨cB, hBeq, hBlen, hBel⟩ :=
      mBody_spec fma a b c M N P p vl m0 mh hN hmh hA hB hC (by omega) hpv
    obtain ⟨cX, hXeq, hXlen, hXel⟩ := ih (m0 + 4) cB (by omega) (by rw [hBlen, hC])
    refine ⟨cX, ?_, hXlen, ?_⟩
    · rw [(show 4 * (g + 1) = 4 * g + 4 from by omega), mLoop_step]
      rw [hBeq]
      exact hXeq
    · intro r q hr hq
      have hBe := hBel r q hr hq
      have hXe := hXel r q hr hq
      rw [hXe]
      have hidx : r * P + q < M * P := by
        have h1 : (r + 1) * P ≤ M * P := Nat.mul_le_mul_right P (by omega)
        have h2 : (r + 1) * P = r * P + P := by ring
        omega
      by_cases hq1 : p ≤ q ∧ q < p + vl
      · by_cases hr1 : m0 + 4 ≤ r
        · rw [if_pos ⟨hr1, hq1.1, hq1.2⟩, if_pos ⟨by omega, hq1.1, hq1.2⟩]
          have hsame : cB.get? (r * P + q) = c.get? (r * P + q) := by
            rw [hBe, if_neg (by omega)]
          have hc1 : c.get? (r * P + q)
              = some (c.getD (r * P + q) default) :=
            get?_eq_some_getD c (r * P + q) (by omega)
          have hgd : cB.getD (r * P + q) default
              = c.getD (r * P + q) default :=
            getD_of_get? cB (r * P + q) _ (by rw [hsame, hc1])
          simp only [refC, dotFma]
          rw [hgd]
        · rw [if_neg (by omega)]
          rw [hBe]
          by_cases hr2 : m0 ≤ r
          · rw [if_pos ⟨hr2, by omega, hq1.1, hq1.2⟩,
              if_pos ⟨hr2, hq1.1, hq1.2⟩]
          · rw [if_neg (by omega), if_neg (by omega)]
      · rw [if_neg (by omega), hBe, if_neg (by omega), if_neg (by omega)]
theorem pLoop_zeroF (fma : α → α → α → α) (a b : List α)
    (M N P VLMAX bsp p : ℕ) (c : List α) :
    pLoop fma a b M N P VLMAX bsp 0 p c
      = if p < P then .error .stall else .ok c := rfl

theorem pLoop_succF (fma : α → α → α → α) (a b : List α)
    (M N P VLMAX bsp f p : ℕ) (c : List α) :
    pLoop fma a b M N P VLMAX bsp (f + 1) p c
      = if p < P then
          match mLoop fma a b p (vset VLMAX (min (P - p) bsp)) N P M 0 c with
          | none => .error .oob
          | some cX => pLoop fma a b M N P VLMAX bsp f (p + bsp) cX
        else .ok c := rfl

/-- Characterization of the column-chunk loop for even `N`: with enough
fuel and a positive chunk step, every element in columns `≥ p` receives
the reference reduction value, and columns `< p` are untouched. -/
theorem pLoop_spec [Inhabited α] (fma : α → α → α → α) (a b : List α)
    (M N P VLMAX bsp mh : ℕ) (hN : N = 2 * mh) (hmh : 1 ≤ mh)
    (hA : a.length = M * N) (hB : b.length = N * P) (hM4 : M % 4 = 0)
    (hbsp1 : 1 ≤ bsp) (hbspV : bsp ≤ VLMAX) :
    ∀ (fuel p : ℕ) (c : List α), P ≤ p + fuel * bsp → c.length = M * P →
      ∃ cX, pLoop fma a b M N P VLMAX bsp fuel p c = .ok cX
        ∧ cX.length = M * P
        ∧ ∀ r q, r < M → q < P →
            cX.get? (r * P + q)
              = if p ≤ q then some (refC fma c a b N P r q)
                else c.get? (r * P + q) := by
  intro fuel
  induction fuel with
  | zero =>
    intro p c hfuel hC
    refine ⟨c, ?_, hC, ?_⟩
    · rw [pLoop_zeroF, if_neg (by omega)]
    · intro r q hr hq
      rw [if_neg (by omega)]
  | succ f ih =>
    intro p c hfuel hC
    by_cases hp : p < P
    · have hvl : vset VLMAX (min (P - p) bsp) = min (P - p) bsp := by
        simp only [vset]
        omega
      obtain ⟨cB, hBeq, hBlen, hBel⟩ := mLoop_spec fma a b M N P p
        (min (P - p) bsp) mh hN hmh hA hB (by omega) (M / 4) 0 c
        (by omega) hC
      have efs : (f + 1) * bsp = f * bsp + bsp := by ring
      obtain ⟨cX, hXeq, hXlen, hXel⟩ := ih (p + bsp) cB (by omega) hBlen
      refine ⟨cX, ?_, hXlen, ?_⟩
      · rw [pLoop_succF, if_pos hp, hvl]
        rw [(show 4 * (M / 4) = M from by omega)] at hBeq
        rw [hBeq]
        exact hXeq
      · intro r q hr hq
        have hBe := hBel r q hr hq
        have hXe := hXel r q hr hq
        rw [hXe]
        have hidx : r * P + q < M * P := by
          have h1 : (r + 1) * P ≤ M * P := Nat.mul_le_mul_right P (by omega)
          have h2 : (r + 1) * P = r * P + P := by ring
          omega
        by_cases hq1 : p ≤ q
        · rw [if_pos hq1]
          by_cases hq2 : q < p + min (P - p) bsp
          · rw [if_neg (by omega), hBe, if_pos ⟨by omega, hq1, hq2⟩]
          · rw [if_pos (by omega)]
            have hsame : cB.get? (r * P + q) = c.get? (r * P + q) := by
              rw [hBe, if_neg (by omega)]
            have hc1 : c.get? (r * P + q)
                = some (c.getD (r * P + q) default) :=
              get?_eq_some_getD c (r * P + q) (by omega)
            have hgd : cB.getD (r * P + q) default
                = c.getD (r * P + q) default :=
              getD_of_get? cB (r * P + q) _ (by rw [hsame, hc1])
            simp only [refC, dotFma]
            rw [hgd]
        · rw [if_neg hq1, if_neg (by omega), hBe, if_neg (by omega)]
    · refine ⟨c, ?_, hC, ?_⟩
      · rw [pLoop_succF, if_neg hp]
      · intro r q hr hq
        rw [if_neg (by omega)]
/-- Top-level correctness of `matmul` for even `N ≥ 2`: the driver
succeeds and every element `C[r][q]` of the `M×P` result holds the
reference value — its prior value plus the strictly ascending FMA
reduction of row `r` of A against column `q` of B. -/
theorem matmul_even_ok [Inhabited α] (fma : α → α → α → α) (c a b : List α)
    (M N P VLMAX mh : ℕ) (hN : N = 2 * mh) (hmh : 1 ≤ mh) (hM4 : M % 4 = 0)
    (hP : 1 ≤ P) (hV : 1 ≤ VLMAX)
    (hA : a.length = M * N) (hB : b.length = N * P) (hC : c.length = M * P) :
    ∃ cX, matmul fma c a b M N P VLMAX = .ok cX ∧ cX.length = M * P
      ∧ ∀ r q, r < M → q < P →
          cX.get? (r * P + q) = some (refC fma c a b N P r q) := by
  have hbsp1 : 1 ≤ vset VLMAX P := by simp only [vset]; omega
  have hbspV : vset VLMAX P ≤ VLMAX := by simp only [vset]; omega
  have hmul : P * 1 ≤ P * vset VLMAX P := Nat.mul_le_mul_left P hbsp1
  have hP1 : P * 1 = P := by ring
  obtain ⟨cX, hXeq, hXlen, hXel⟩ := pLoop_spec fma a b M N P VLMAX
    (vset VLMAX P) mh hN hmh hA hB hM4 hbsp1 hbspV P 0 c (by omega) hC
  refine ⟨cX, hXeq, hXlen, ?_⟩
  intro r q hr hq
  rw [hXel r q hr hq, if_pos (Nat.zero_le q)]

theorem writeMany_length (l : List α) (i : ℕ) (v lX : List α)
    (h : writeMany l i v = some lX) : lX.length = l.length := by
  simp only [writeMany] at h
  split at h
  · cases h
    exact setMany_length v l i
  · cases h

theorem mvTail_length (fma : α → α → α → α) (c : List α) (cOff P : ℕ)
    (st : MVSt α) (cX : List α) (h : mvTail fma c cOff P st = some cX) :
    cX.length = c.length := by
  simp only [mvTail] at h
  cases hw0 : writeMany c cOff (vfmacc fma st.t0 st.vB st.a0) with
  | none => simp only [hw0] at h; cases h
  | some c1 =>
    simp only [hw0] at h
    cases hw1 : writeMany c1 (cOff + P) (vfmacc fma st.t1 st.vB st.a1) with
    | none => simp only [hw1] at h; cases h
    | some c2 =>
      simp only [hw1] at h
      cases hw2 : writeMany c2 (cOff + 2 * P) (vfmacc fma st.t2 st.vB st.a2) with
      | none => simp only [hw2] at h; cases h
      | some c3 =>
        simp only [hw2] at h
        rw [writeMany_length _ _ _ _ h, writeMany_length _ _ _ _ hw2,
          writeMany_length _ _ _ _ hw1, writeMany_length _ _ _ _ hw0]

theorem matmul_vec_4x4_length (fma : α → α → α → α) (c : List α) (cOff : ℕ)
    (a : List α) (aOff : ℕ) (b : List α) (bOff : ℕ) (N P vl : ℕ)
    (acc0 acc1 acc2 acc3 : List α) (cX : List α)
    (h : matmul_vec_4x4 fma c cOff a aOff b bOff N P vl
      acc0 acc1 acc2 acc3 = some cX) : cX.length = c.length := by
  simp only [matmul_vec_4x4] at h
  split at h
  · cases h
  · split at h
    · cases h
    · split at h
      · cases h
      · exact mvTail_length fma c cOff P _ cX h

theorem mBody_length (fma : α → α → α → α) (a b c : List α)
    (p vl m N P : ℕ) (cX : List α)
    (h : mBody fma a b c p vl m N P = some cX) : cX.length = c.length := by
  simp only [mBody] at h
  split at h
  · cases h
  · exact matmul_vec_4x4_length fma c _ a _ b _ N P vl _ _ _ _ cX h

theorem mLoop_length (fma : α → α → α → α) (a b : List α) (p vl N P : ℕ) :
    ∀ (rem m : ℕ) (c cX : List α),
      mLoop fma a b p vl N P rem m c = some cX → cX.length = c.length := by
  intro rem
  induction rem using Nat.strong_induction_on with
  | _ rem ih =>
    intro m c cX h
    rcases Nat.lt_or_ge rem 4 with h4 | h4
    · interval_cases rem
      · rw [mLoop_zero] at h
        cases h
        rfl
      · exact mBody_length fma a b c p vl m N P cX h
      · exact mBody_length fma a b c p vl m N P cX h
      · exact mBody_length fma a b c p vl m N P cX h
    · obtain ⟨r, hr⟩ : ∃ r, rem = r + 4 := ⟨rem - 4, by omega⟩
      subst hr
      rw [mLoop_step] at h
      split at h
      · cases h
      · rename_i cB hB
        rw [ih r (by omega) (m + 4) cB cX h, mBody_length fma a b c p vl m N P cB hB]

theorem pLoop_length (fma : α → α → α → α) (a b : List α)
    (M N P VLMAX bsp : ℕ) :
    ∀ (fuel p : ℕ) (c cX : List α),
      pLoop fma a b M N P VLMAX bsp fuel p c = .ok cX →
      cX.length = c.length := by
  intro fuel
  induction fuel with
  | zero =>
    intro p c cX h
    rw [pLoop_zeroF] at h
    split at h
    · cases h
    · cases h
      rfl
  | succ f ih =>
    intro p c cX h
    rw [pLoop_succF] at h
    split at h
    · split at h
      · cases h
      · rename_i cB hB
        rw [ih (p + bsp) cB cX h,
          mLoop_length fma a b p (vset VLMAX (min (P - p) bsp)) N P M 0 c cB hB]
    · cases h
      rfl

theorem matmul_length (fma : α → α → α → α) (c a b : List α)
    (M N P VLMAX : ℕ) (cX : List α)
    (h : matmul fma c a b M N P VLMAX = .ok cX) : cX.length = c.length :=
  pLoop_length fma a b M N P VLMAX (vset VLMAX P) P 0 c cX h

theorem pLoop_no_stall (fma : α → α → α → α) (a b : List α)
    (M N P VLMAX bsp : ℕ) (hbsp : 1 ≤ bsp) :
    ∀ (fuel p : ℕ) (c : List α), P ≤ p + fuel * bsp →
      pLoop fma a b M N P VLMAX bsp fuel p c ≠ .error .stall := by
  intro fuel
  induction fuel with
  | zero =>
    intro p c hfuel
    rw [pLoop_zeroF, if_neg (by omega)]
    intro h
    cases h
  | succ f ih =>
    intro p c hfuel
    rw [pLoop_succF]
    split
    · split
      · intro h
        cases h
      · rename_i cB hB
        have efs : (f + 1) * bsp = f * bsp + bsp := by ring
        exact ih (p + bsp) cB (by omega)
    · intro h
      cases h
end Driver

section IntInst

/-- The concrete instantiation of the abstract FMA used for evaluating
the model on integer inputs: `zfma x y acc = x * y + acc`. -/
def zfma : ℤ → ℤ → ℤ → ℤ := fun x y acc => x * y + acc

theorem dotFmaFrom_zfma (f g : ℕ → ℤ) :
    ∀ (cnt k : ℕ) (acc : ℤ),
      dotFmaFrom zfma f g k cnt acc
        = acc + ∑ i in Finset.range cnt, f (k + i) * g (k + i) := by
  intro cnt
  induction cnt with
  | zero => intro k acc; simp [dotFmaFrom]
  | succ cnt ih =>
    intro k acc
    simp only [dotFmaFrom, zfma]
    rw [ih (k + 1), Finset.sum_range_succ']
    have he : ∀ i, f (k + 1 + i) * g (k + 1 + i) = f (k + (i + 1)) * g (k + (i + 1)) := by
      intro i
      rw [(show k + 1 + i = k + (i + 1) from by omega)]
    rw [Finset.sum_congr rfl (fun i _ => he i)]
    simp only [Nat.add_zero]
    ring

/-- On the integer instantiation, the reference element value is the
prior C value plus the matrix-product sum, in the literal algebraic
sense. -/
theorem refC_zfma (c a b : List ℤ) (N P r q : ℕ) :
    refC zfma c a b N P r q
      = c.getD (r * P + q) default
        + ∑ k in Finset.range N,
            a.getD (r * N + k) default * b.getD (k * P + q) default := by
  simp only [refC, dotFma, dotFmaFrom_zfma]
  simp only [Nat.zero_add]

theorem all_zero_getD (l : List ℤ) (hl : ∀ x ∈ l, x = 0) (i : ℕ)
    (hi : i < l.length) : l.getD i default = 0 := by
  have h1 : l.get? i = some (l.getD i default) := get?_eq_some_getD l i hi
  have h2 : l.getD i default ∈ l := by
    induction l generalizing i with
    | nil => simp at hi
    | cons x xs ih =>
      cases i with
      | zero =>
        simp only [List.getD, List.get?] at h1 ⊢
        exact List.mem_cons_self x xs
      | succ j =>
        have hj : j < xs.length := by simpa using hi
        have hx : xs.get? j = some (xs.getD j default) :=
          get?_eq_some_getD xs j hj
        have hmem := ih (fun y hy => hl y (List.mem_cons_of_mem x hy)) j hj hx
        have he : (x :: xs).getD (j + 1) default = xs.getD j default := by
          simp [List.getD]
        rw [he]
        exact List.mem_cons_of_mem x hmem
  exact hl _ h2

end IntInst

section Helpers

variable {α : Type}

/-- Success test for the driver's result. -/
def exOk {ε β : Type} : Except ε β → Bool
  | .ok _ => true
  | .error _ => false

theorem idx_decomp (P idx : ℕ) (hP : 0 < P) :
    (idx / P) * P + idx % P = idx := by
  rw [Nat.mul_comm]
  exact Nat.div_add_mod idx P

theorem idx_div_lt (M P idx : ℕ) (hP : 0 < P) (h : idx < M * P) :
    idx / P < M :=
  Nat.div_lt_of_lt_mul (by rw [Nat.mul_comm] at h; exact h)

end Helpers

section Claims

/-- C1 counterexample: at M = 4 (a positive multiple of 4), N = 1, P = 1,
with exactly-sized buffers, the kernel does not replace the elements of C
with the specified sums; it aborts on an out-of-bounds load (the pipelined
loop's break test `n == N-1` is reached only at odd n, so for odd N the
loop overruns the reduction range).  Hence no result buffer exists at all. -/
theorem C1_counterexample_odd_N :
    matmul zfma [0, 0, 0, 0] [1, 2, 3, 4] [5] 4 1 1 1
      = Except.error KErr.oob
    ∧ ¬ ∃ cX, matmul zfma [0, 0, 0, 0] [1, 2, 3, 4] [5] 4 1 1 1
        = Except.ok cX := by
  refine ⟨rfl, ?_⟩
  intro ⟨cX, hX⟩
  rw [(rfl : matmul zfma [0, 0, 0, 0] [1, 2, 3, 4] [5] 4 1 1 1
    = Except.error KErr.oob)] at hX
  cases hX

/-- C1 (amended): for every M that is a positive multiple of 4, every
even N ≥ 2, every P ≥ 1, any positive hardware vector length, and
exactly-sized row-major buffers, `matmul` succeeds and replaces each
element `C[i][j]` by its prior value plus the ascending-k FMA reduction
`Σ_{k<N} A[i][k]*B[k][j]` (the reference value `refC`).  For odd N the
kernel is out of specification (see the counterexample). -/
theorem C1_matmul_even_postcondition {α : Type} [Inhabited α]
    (fma : α → α → α → α) (c a b : List α) (M N P VLMAX : ℕ)
    (hM : 0 < M) (hM4 : M % 4 = 0) (hN : 0 < N) (hNe : N % 2 = 0)
    (hP : 0 < P) (hV : 0 < VLMAX)
    (hA : a.length = M * N) (hB : b.length = N * P) (hC : c.length = M * P) :
    ∃ cX, matmul fma c a b M N P VLMAX = .ok cX ∧ cX.length = M * P
      ∧ ∀ i j, i < M → j < P →
          cX.get? (i * P + j) = some (refC fma c a b N P i j) :=
  matmul_even_ok fma c a b M N P VLMAX (N / 2) (by omega) (by omega)
    hM4 hP hV hA hB hC

/-- C1 witness: the amended theorem applied at M = 4, N = 2, P = 3,
VLMAX = 2 with concrete integer matrices. -/
theorem C1_matmul_even_postcondition_witness :
    ((0 : ℕ) < 4 ∧ 4 % 4 = 0 ∧ (0 : ℕ) < 2 ∧ 2 % 2 = 0 ∧ (0 : ℕ) < 3
      ∧ (0 : ℕ) < 2
      ∧ ([1, 2, 3, 4, 5, 6, 7, 8] : List ℤ).length = 4 * 2
      ∧ ([1, 2, 3, 4, 5, 6] : List ℤ).length = 2 * 3
      ∧ (List.replicate 12 (100 : ℤ)).length = 4 * 3)
    ∧ ∃ cX, matmul zfma (List.replicate 12 (100 : ℤ))
        [1, 2, 3, 4, 5, 6, 7, 8] [1, 2, 3, 4, 5, 6] 4 2 3 2 = .ok cX
      ∧ cX.length = 4 * 3
      ∧ ∀ i j, i < 4 → j < 3 →
          cX.get? (i * 3 + j)
            = some (refC zfma (List.replicate 12 (100 : ℤ))
                [1, 2, 3, 4, 5, 6, 7, 8] [1, 2, 3, 4, 5, 6] 2 3 i j) :=
  ⟨by decide,
    C1_matmul_even_postcondition zfma (List.replicate 12 (100 : ℤ))
      [1, 2, 3, 4, 5, 6, 7, 8] [1, 2, 3, 4, 5, 6] 4 2 3 2
      (by decide) (by decide) (by decide) (by decide) (by decide) (by decide)
      (by decide) (by decide) (by decide)⟩

/-- C2 counterexample: at N = 1 the inner kernel issues a load beyond the
valid reduction range — the model aborts with `none` on the out-of-bounds
load of row 1 of B — so the claim fails for odd N. -/
theorem C2_counterexample_odd_N :
    matmul_vec_4x4 zfma [0, 0, 0, 0] 0 [1, 2, 3, 4] 0 [5] 0 1 1 1
      [0] [0] [0] [0] = none := rfl

/-- C2 (amended): for every even N ≥ 2 and in-bounds block pointers, the
software-pipelined loop of `matmul_vec_4x4` exits through the break after
consuming the last scalar/vector pair and the final FMA uses the data
already prefetched, so no load with reduction index ≥ N is ever issued:
the kernel runs to completion with no out-of-bounds access. -/
theorem C2_no_overrun_even {α : Type} [Inhabited α]
    (fma : α → α → α → α) (c a b : List α) (cOff aOff bOff N P vl : ℕ)
    (hN : 0 < N) (hNe : N % 2 = 0)
    (ha : aOff + 4 * N ≤ a.length)
    (hb : bOff + (N - 1) * P + vl ≤ b.length)
    (hc : cOff + 3 * P + vl ≤ c.length)
    (acc0 acc1 acc2 acc3 : List α)
    (l0 : acc0.length = vl) (l1 : acc1.length = vl)
    (l2 : acc2.length = vl) (l3 : acc3.length = vl) :
    ∃ cX, matmul_vec_4x4 fma c cOff a aOff b bOff N P vl
      acc0 acc1 acc2 acc3 = some cX :=
  ⟨_, matmul_vec_4x4_spec fma c a b cOff aOff bOff N P vl (N / 2)
    (by omega) (by omega) ha hb hc acc0 acc1 acc2 acc3 l0 l1 l2 l3⟩

/-- C2 witness: the amended theorem at N = 2, P = 1, vl = 1 with concrete
integer buffers. -/
theorem C2_no_overrun_even_witness :
    ((0 : ℕ) < 2 ∧ 2 % 2 = 0
      ∧ 0 + 4 * 2 ≤ ([1, 2, 3, 4, 5, 6, 7, 8] : List ℤ).length
      ∧ 0 + (2 - 1) * 1 + 1 ≤ ([10, 20] : List ℤ).length
      ∧ 0 + 3 * 1 + 1 ≤ ([0, 0, 0, 0] : List ℤ).length)
    ∧ ∃ cX, matmul_vec_4x4 zfma [0, 0, 0, 0] 0 [1, 2, 3, 4, 5, 6, 7, 8] 0
        [10, 20] 0 2 1 1 [(0 : ℤ)] [0] [0] [0] = some cX :=
  ⟨by decide,
    C2_no_overrun_even zfma [0, 0, 0, 0] [1, 2, 3, 4, 5, 6, 7, 8] [10, 20]
      0 0 0 2 1 1 (by decide) (by decide) (by decide) (by decide) (by decide)
      [(0 : ℤ)] [0] [0] [0] (by decide) (by decide) (by decide) (by decide)⟩

/-- C3 counterexample: at N = 3 (odd) the inner kernel performs
out-of-bounds loads and the model aborts, so the value it stores back is
not the naive ascending FMA reduction — nothing valid is stored at all. -/
theorem C3_counterexample_odd_N :
    matmul_vec_4x4 zfma [0, 0, 0, 0] 0
      [0, 1, 2, 3, 4, 5, 6, 7, 8, 9, 10, 11] 0 [10, 20, 30] 0 3 1 1
      [0] [0] [0] [0] = none := rfl

/-- C3 (amended): for even N, the value `matmul_vec_4x4` stores back to C
for row i of the group and column j of the chunk is bit-for-bit the
left-to-right fold `acc := fma (A-scalar k) (B-element k) acc` for
k = 0,…,N-1 starting from the pre-loaded accumulator element — the
software-pipelined, 2-way-unrolled kernel refines the naive
strictly-ascending-k FMA reduction. -/
theorem C3_pipelined_refines_naive_even {α : Type} [Inhabited α]
    (fma : α → α → α → α) (c a b : List α) (cOff aOff bOff N P vl : ℕ)
    (hN : 0 < N) (hNe : N % 2 = 0) (hvlP : vl ≤ P)
    (ha : aOff + 4 * N ≤ a.length)
    (hb : bOff + (N - 1) * P + vl ≤ b.length)
    (hc : cOff + 3 * P + vl ≤ c.length)
    (acc0 acc1 acc2 acc3 : List α)
    (l0 : acc0.length = vl) (l1 : acc1.length = vl)
    (l2 : acc2.length = vl) (l3 : acc3.length = vl) :
    ∃ cX, matmul_vec_4x4 fma c cOff a aOff b bOff N P vl
        acc0 acc1 acc2 acc3 = some cX
      ∧ ∀ j, j < vl →
          cX.get? (cOff + j)
            = some (dotFmaFrom fma (fun k => a.getD (aOff + k) default)
                (fun k => b.getD (bOff + k * P + j) default) 0 N
                (acc0.getD j default))
          ∧ cX.get? (cOff + P + j)
            = some (dotFmaFrom fma (fun k => a.getD (aOff + k + N) default)
                (fun k => b.getD (bOff + k * P + j) default) 0 N
                (acc1.getD j default))
          ∧ cX.get? (cOff + 2 * P + j)
            = some (dotFmaFrom fma (fun k => a.getD (aOff + k + 2 * N) default)
                (fun k => b.getD (bOff + k * P + j) default) 0 N
                (acc2.getD j default))
          ∧ cX.get? (cOff + 3 * P + j)
            = some (dotFmaFrom fma (fun k => a.getD (aOff + k + 3 * N) default)
                (fun k => b.getD (bOff + k * P + j) default) 0 N
                (acc3.getD j default)) := by
  have hmv := matmul_vec_4x4_spec fma c a b cOff aOff bOff N P vl (N / 2)
    (by omega) (by omega) ha hb hc acc0 acc1 acc2 acc3 l0 l1 l2 l3
  have hg : ∀ kk, (readSeg b (bOff + kk * P) vl).length = vl := fun kk =>
    readSeg_length b vl (bOff + kk * P)
  have hgq : ∀ j, j < vl → ∀ k,
      (readSeg b (bOff + k * P) vl).getD j default
        = b.getD (bOff + k * P + j) default := by
    intro j hj k
    exact readSeg_getD b vl (bOff + k * P) j hj
  refine ⟨_, hmv, ?_⟩
  intro j hj
  have lW0 : (foldFmaVec fma (fun k => a.getD (aOff + k) default)
      (fun k => readSeg b (bOff + k * P) vl) 0 N acc0).length = vl :=
    foldFmaVec_length fma _ _ vl hg N 0 acc0 l0
  have lW1 : (foldFmaVec fma (fun k => a.getD (aOff + k + N) default)
      (fun k => readSeg b (bOff + k * P) vl) 0 N acc1).length = vl :=
    foldFmaVec_length fma _ _ vl hg N 0 acc1 l1
  have lW2 : (foldFmaVec fma (fun k => a.getD (aOff + k + 2 * N) default)
      (fun k => readSeg b (bOff + k * P) vl) 0 N acc2).length = vl :=
    foldFmaVec_length fma _ _ vl hg N 0 acc2 l2
  have lW3 : (foldFmaVec fma (fun k => a.getD (aOff + k + 3 * N) default)
      (fun k => readSeg b (bOff + k * P) vl) 0 N acc3).length = vl :=
    foldFmaVec_length fma _ _ vl hg N 0 acc3 l3
  refine ⟨?_, ?_, ?_, ?_⟩
  · rw [quad_get?_r0 c cOff P vl _ _ _ _ lW0 hvlP j hj hc,
      foldFmaVec_get? fma _ _ vl hg N 0 acc0 j l0 hj]
    exact congrArg some (dotFmaFrom_congr fma _ _ _ _ (fun k => rfl)
      (hgq j hj) N 0 _)
  · rw [quad_get?_r1 c cOff P vl _ _ _ _ lW0 lW1 hvlP j hj hc,
      foldFmaVec_get? fma _ _ vl hg N 0 acc1 j l1 hj]
    exact congrArg some (dotFmaFrom_congr fma _ _ _ _ (fun k => rfl)
      (hgq j hj) N 0 _)
  · rw [quad_get?_r2 c cOff P vl _ _ _ _ lW1 lW2 hvlP j hj hc,
      foldFmaVec_get? fma _ _ vl hg N 0 acc2 j l2 hj]
    exact congrArg some (dotFmaFrom_congr fma _ _ _ _ (fun k => rfl)
      (hgq j hj) N 0 _)
  · rw [quad_get?_r3 c cOff P vl _ _ _ _ lW2 lW3 hvlP j hj hc,
      foldFmaVec_get? fma _ _ vl hg N 0 acc3 j l3 hj]
    exact congrArg some (dotFmaFrom_congr fma _ _ _ _ (fun k => rfl)
      (hgq j hj) N 0 _)

/-- C3 witness: the amended refinement theorem at N = 2, P = 1, vl = 1
with concrete integer buffers. -/
theorem C3_pipelined_refines_naive_even_witness :
    ((0 : ℕ) < 2 ∧ 2 % 2 = 0 ∧ (1 : ℕ) ≤ 1
      ∧ 0 + 4 * 2 ≤ ([1, 2, 3, 4, 5, 6, 7, 8] : List ℤ).length
      ∧ 0 + (2 - 1) * 1 + 1 ≤ ([10, 20] : List ℤ).length
      ∧ 0 + 3 * 1 + 1 ≤ ([0, 0, 0, 0] : List ℤ).length)
    ∧ ∃ cX, matmul_vec_4x4 zfma [0, 0, 0, 0] 0 [1, 2, 3, 4, 5, 6, 7, 8] 0
        [10, 20] 0 2 1 1 [(7 : ℤ)] [0] [0] [0] = some cX
      ∧ ∀ j, j < 1 →
          cX.get? (0 + j)
            = some (dotFmaFrom zfma
                (fun k => ([1, 2, 3, 4, 5, 6, 7, 8] : List ℤ).getD (0 + k) default)
                (fun k => ([10, 20] : List ℤ).getD (0 + k * 1 + j) default) 0 2
                (([(7 : ℤ)]).getD j default))
          ∧ cX.get? (0 + 1 + j)
            = some (dotFmaFrom zfma
                (fun k => ([1, 2, 3, 4, 5, 6, 7, 8] : List ℤ).getD (0 + k + 2) default)
                (fun k => ([10, 20] : List ℤ).getD (0 + k * 1 + j) default) 0 2
                (([(0 : ℤ)]).getD j default))
          ∧ cX.get? (0 + 2 * 1 + j)
            = some (dotFmaFrom zfma
                (fun k => ([1, 2, 3, 4, 5, 6, 7, 8] : List ℤ).getD (0 + k + 2 * 2) default)
                (fun k => ([10, 20] : List ℤ).getD (0 + k * 1 + j) default) 0 2
                (([(0 : ℤ)]).getD j default))
          ∧ cX.get? (0 + 3 * 1 + j)
            = some (dotFmaFrom zfma
                (fun k => ([1, 2, 3, 4, 5, 6, 7, 8] : List ℤ).getD (0 + k + 3 * 2) default)
                (fun k => ([10, 20] : List ℤ).getD (0 + k * 1 + j) default) 0 2
                (([(0 : ℤ)]).getD j default)) :=
  ⟨by decide,
    C3_pipelined_refines_naive_even zfma [0, 0, 0, 0]
      [1, 2, 3, 4, 5, 6, 7, 8] [10, 20] 0 0 0 2 1 1
      (by decide) (by decide) (by decide) (by decide) (by decide) (by decide)
      [(7 : ℤ)] [0] [0] [0] (by decide) (by decide) (by decide) (by decide)⟩

/-- C4 counterexample: at P = 3, VLMAX = 2 (so the negotiated VL0 = 2
does not divide P) and N = 1, the final partial chunk is not computed
correctly: the kernel aborts on an out-of-bounds load, so the claim as
stated (for every N) is false. -/
theorem C4_counterexample_odd_N :
    ¬ (vset 2 3 ∣ 3)
    ∧ matmul zfma [0, 0, 0, 0, 0, 0, 0, 0, 0, 0, 0, 0] [1, 2, 3, 4]
        [10, 20, 30] 4 1 3 2 = Except.error KErr.oob := by
  refine ⟨?_, rfl⟩
  decide

/-- C4 (amended): when P is not a multiple of the negotiated VL0 and N is
even, the remaining-count clamp `min (P - p) VL0` for the final chunk
equals `P mod VL0`, the re-negotiation grants exactly that count (a
proper partial chunk, neither zero nor full), and every column of the
final partial chunk — indeed every column — is computed correctly, with
the result confined to the `M*P` buffer. -/
theorem C4_partial_chunk_even {α : Type} [Inhabited α]
    (fma : α → α → α → α) (c a b : List α) (M N P VLMAX : ℕ)
    (hM : 0 < M) (hM4 : M % 4 = 0) (hN : 0 < N) (hNe : N % 2 = 0)
    (hP : 0 < P) (hV : 0 < VLMAX)
    (hA : a.length = M * N) (hB : b.length = N * P) (hC : c.length = M * P)
    (hndvd : ¬ vset VLMAX P ∣ P) :
    (min (P - (P - P % vset VLMAX P)) (vset VLMAX P) = P % vset VLMAX P
      ∧ vset VLMAX (P % vset VLMAX P) = P % vset VLMAX P
      ∧ 0 < P % vset VLMAX P
      ∧ P % vset VLMAX P < vset VLMAX P)
    ∧ ∃ cX, matmul fma c a b M N P VLMAX = .ok cX ∧ cX.length = M * P
      ∧ ∀ i j, i < M → P - P % vset VLMAX P ≤ j → j < P →
          cX.get? (i * P + j) = some (refC fma c a b N P i j) := by
  have hV0 : 0 < vset VLMAX P := by
    simp only [vset]
    omega
  have hmod_lt : P % vset VLMAX P < vset VLMAX P := Nat.mod_lt P hV0
  have hmod_ne : P % vset VLMAX P ≠ 0 := by
    intro h0
    exact hndvd (Nat.dvd_of_mod_eq_zero h0)
  have hmod_le : P % vset VLMAX P ≤ P := Nat.mod_le P _
  refine ⟨⟨?_, ?_, by omega, hmod_lt⟩, ?_⟩
  · rw [Nat.sub_sub_self hmod_le]
    exact min_eq_left (le_of_lt hmod_lt)
  · have h1 : vset VLMAX P ≤ VLMAX := min_le_right P VLMAX
    have h2 : P % vset VLMAX P ≤ VLMAX := by omega
    exact min_eq_left h2
  · obtain ⟨cX, hX, hL, hE⟩ := matmul_even_ok fma c a b M N P VLMAX (N / 2)
      (by omega) (by omega) hM4 hP hV hA hB hC
    exact ⟨cX, hX, hL, fun i j hi _ hj => hE i j hi hj⟩

/-- C4 witness: the amended theorem at M = 4, N = 2, P = 3, VLMAX = 2
(so VL0 = 2 and the final chunk holds the single remaining column). -/
theorem C4_partial_chunk_even_witness :
    ((0 : ℕ) < 4 ∧ 4 % 4 = 0 ∧ (0 : ℕ) < 2 ∧ 2 % 2 = 0 ∧ (0 : ℕ) < 3
      ∧ (0 : ℕ) < 2
      ∧ ([1, 2, 3, 4, 5, 6, 7, 8] : List ℤ).length = 4 * 2
      ∧ ([1, 2, 3, 4, 5, 6] : List ℤ).length = 2 * 3
      ∧ (List.replicate 12 (0 : ℤ)).length = 4 * 3
      ∧ ¬ vset 2 3 ∣ 3)
    ∧ ((min (3 - (3 - 3 % vset 2 3)) (vset 2 3) = 3 % vset 2 3
        ∧ vset 2 (3 % vset 2 3) = 3 % vset 2 3
        ∧ 0 < 3 % vset 2 3
        ∧ 3 % vset 2 3 < vset 2 3)
      ∧ ∃ cX, matmul zfma (List.replicate 12 (0 : ℤ))
          [1, 2, 3, 4, 5, 6, 7, 8] [1, 2, 3, 4, 5, 6] 4 2 3 2 = .ok cX
        ∧ cX.length = 4 * 3
        ∧ ∀ i j, i < 4 → 3 - 3 % vset 2 3 ≤ j → j < 3 →
            cX.get? (i * 3 + j)
              = some (refC zfma (List.replicate 12 (0 : ℤ))
                  [1, 2, 3, 4, 5, 6, 7, 8] [1, 2, 3, 4, 5, 6] 2 3 i j)) :=
  ⟨by decide,
    C4_partial_chunk_even zfma (List.replicate 12 (0 : ℤ))
      [1, 2, 3, 4, 5, 6, 7, 8] [1, 2, 3, 4, 5, 6] 4 2 3 2
      (by decide) (by decide) (by decide) (by decide) (by decide) (by decide)
      (by decide) (by decide) (by decide) (by decide)⟩

/-- C5: for even N (with M a positive multiple of 4, P ≥ 1 and
exactly-sized buffers), every load issued through the driver is within
bounds: the break `n == N-1` fires on the iteration that consumed
reduction step N-2, so the out-of-bounds branch of the embedded loads is
unreachable and the whole computation succeeds. -/
theorem C5_even_loads_in_bounds {α : Type} [Inhabited α]
    (fma : α → α → α → α) (c a b : List α) (M N P VLMAX : ℕ)
    (hM : 0 < M) (hM4 : M % 4 = 0) (hN : 0 < N) (hNe : N % 2 = 0)
    (hP : 0 < P) (hV : 0 < VLMAX)
    (hA : a.length = M * N) (hB : b.length = N * P) (hC : c.length = M * P) :
    exOk (matmul fma c a b M N P VLMAX) = true := by
  obtain ⟨cX, hX, -, -⟩ := matmul_even_ok fma c a b M N P VLMAX (N / 2)
    (by omega) (by omega) hM4 hP hV hA hB hC
  rw [hX]
  rfl

/-- C5 witness: the in-bounds theorem at M = 4, N = 4, P = 1, VLMAX = 1
with concrete integer buffers. -/
theorem C5_even_loads_in_bounds_witness :
    ((0 : ℕ) < 4 ∧ 4 % 4 = 0 ∧ (0 : ℕ) < 4 ∧ 4 % 4 % 2 = 0 ∧ (0 : ℕ) < 1
      ∧ (0 : ℕ) < 1)
    ∧ exOk (matmul zfma [0, 0, 0, 0]
        [0, 1, 2, 3, 4, 5, 6, 7, 8, 9, 10, 11, 12, 13, 14, 15]
        [1, 1, 1, 1] 4 4 1 1) = true :=
  ⟨by decide,
    C5_even_loads_in_bounds zfma [0, 0, 0, 0]
      [0, 1, 2, 3, 4, 5, 6, 7, 8, 9, 10, 11, 12, 13, 14, 15] [1, 1, 1, 1]
      4 4 1 1 (by decide) (by decide) (by decide) (by decide) (by decide)
      (by decide) (by decide) (by decide) (by decide)⟩

/-- Two successive invocations of `matmul` with the same A and B on the C
buffer produced by the first call (the spec's double-accumulation test). -/
def matmulTwice (c a b : List ℤ) (M N P VLMAX : ℕ) : Except KErr (List ℤ) :=
  match matmul zfma c a b M N P VLMAX with
  | .error e => .error e
  | .ok c1 => matmul zfma c1 a b M N P VLMAX

/-- C6 counterexample: at N = 1 (a valid input per the claim, which
quantifies over every N ≥ 1) even the first invocation aborts on an
out-of-bounds load, so the double invocation does not leave C holding
`C0 + 2*(A*B)`. -/
theorem C6_counterexample_odd_N :
    matmulTwice [0, 0, 0, 0] [1, 2, 3, 4] [5] 4 1 1 1
      = Except.error KErr.oob := rfl

/-- C6 (amended): for even N ≥ 2 (with M a positive multiple of 4,
P ≥ 1, exactly-sized integer buffers), invoking `matmul` twice in
succession with the same A and B leaves C holding `C0 + 2*(A*B)`: C is
read as an additive base by every call, never simply overwritten. -/
theorem C6_double_accumulates_even (c a b : List ℤ) (M N P VLMAX : ℕ)
    (hM : 0 < M) (hM4 : M % 4 = 0) (hN : 0 < N) (hNe : N % 2 = 0)
    (hP : 0 < P) (hV : 0 < VLMAX)
    (hA : a.length = M * N) (hB : b.length = N * P) (hC : c.length = M * P) :
    ∃ cX, matmulTwice c a b M N P VLMAX = .ok cX ∧ cX.length = M * P
      ∧ ∀ i j, i < M → j < P →
          cX.get? (i * P + j)
            = some (c.getD (i * P + j) default
                + 2 * ∑ k in Finset.range N,
                    a.getD (i * N + k) default * b.getD (k * P + j) default) := by
  obtain ⟨c1, h1, l1, e1⟩ := matmul_even_ok zfma c a b M N P VLMAX (N / 2)
    (by omega) (by omega) hM4 hP hV hA hB hC
  obtain ⟨c2, h2, l2, e2⟩ := matmul_even_ok zfma c1 a b M N P VLMAX (N / 2)
    (by omega) (by omega) hM4 hP hV hA hB l1
  refine ⟨c2, ?_, l2, ?_⟩
  · simp only [matmulTwice, h1]
    exact h2
  · intro i j hi hj
    rw [e2 i j hi hj, refC_zfma]
    have hgd : c1.getD (i * P + j) default = refC zfma c a b N P i j :=
      getD_of_get? c1 (i * P + j) _ (e1 i j hi hj)
    rw [hgd, refC_zfma]
    refine congrArg some ?_
    ring

/-- C6 witness: the double-accumulation theorem at M = 4, N = 2, P = 1,
VLMAX = 1 with concrete integer matrices. -/
theorem C6_double_accumulates_even_witness :
    ((0 : ℕ) < 4 ∧ 4 % 4 = 0 ∧ (0 : ℕ) < 2 ∧ 2 % 2 = 0 ∧ (0 : ℕ) < 1
      ∧ (0 : ℕ) < 1
      ∧ ([1, 2, 3, 4, 5, 6, 7, 8] : List ℤ).length = 4 * 2
      ∧ ([10, 20] : List ℤ).length = 2 * 1
      ∧ ([1, 1, 1, 1] : List ℤ).length = 4 * 1)
    ∧ ∃ cX, matmulTwice [1, 1, 1, 1] [1, 2, 3, 4, 5, 6, 7, 8] [10, 20]
        4 2 1 1 = .ok cX
      ∧ cX.length = 4 * 1
      ∧ ∀ i j, i < 4 → j < 1 →
          cX.get? (i * 1 + j)
            = some (([1, 1, 1, 1] : List ℤ).getD (i * 1 + j) default
                + 2 * ∑ k in Finset.range 2,
                    ([1, 2, 3, 4, 5, 6, 7, 8] : List ℤ).getD (i * 2 + k) default
                      * ([10, 20] : List ℤ).getD (k * 1 + j) default) :=
  ⟨by decide,
    C6_double_accumulates_even [1, 1, 1, 1] [1, 2, 3, 4, 5, 6, 7, 8] [10, 20]
      4 2 1 1 (by decide) (by decide) (by decide) (by decide) (by decide)
      (by decide) (by decide) (by decide) (by decide)⟩

/-- C7 counterexample: with A all zeros but N = 1 (a valid input per the
claim, which quantifies over all valid M, N, P), the kernel performs an
out-of-bounds load and aborts instead of leaving C unchanged. -/
theorem C7_counterexample_odd_N :
    matmul zfma [7, 8, 9, 10] [0, 0, 0, 0] [5] 4 1 1 1
      = Except.error KErr.oob := rfl

/-- C7 (amended): for even N (with M a positive multiple of 4, P ≥ 1 and
exactly-sized integer buffers), if every element of A is zero, or every
element of B is zero, `matmul` returns C exactly unchanged. -/
theorem C7_zero_leaves_C_unchanged_even (c a b : List ℤ) (M N P VLMAX : ℕ)
    (hM : 0 < M) (hM4 : M % 4 = 0) (hN : 0 < N) (hNe : N % 2 = 0)
    (hP : 0 < P) (hV : 0 < VLMAX)
    (hA : a.length = M * N) (hB : b.length = N * P) (hC : c.length = M * P)
    (hz : (∀ x ∈ a, x = 0) ∨ (∀ x ∈ b, x = 0)) :
    matmul zfma c a b M N P VLMAX = .ok c := by
  obtain ⟨cX, hX, hL, hE⟩ := matmul_even_ok zfma c a b M N P VLMAX (N / 2)
    (by omega) (by omega) hM4 hP hV hA hB hC
  have hcx : cX = c := by
    apply List.ext_get?_iff.mpr
    intro n
    by_cases hn : n < M * P
    · have hr : n / P < M := idx_div_lt M P n hP hn
      have hq : n % P < P := Nat.mod_lt n hP
      have hdec : (n / P) * P + n % P = n := idx_decomp P n hP
      have he := hE (n / P) (n % P) hr hq
      rw [hdec] at he
      rw [he, refC_zfma, hdec]
      have hsum : ∑ k in Finset.range N,
          a.getD ((n / P) * N + k) default * b.getD (k * P + n % P) default
          = 0 := by
        apply Finset.sum_eq_zero
        intro k hk
        have hkN : k < N := Finset.mem_range.mp hk
        rcases hz with hza | hzb
        · have hbound : (n / P) * N + k < a.length := by
            rw [hA]
            have hm1 : (n / P + 1) * N ≤ M * N := Nat.mul_le_mul_right N (by omega)
            have hm2 : (n / P + 1) * N = (n / P) * N + N := by ring
            omega
          rw [all_zero_getD a hza _ hbound]
          ring
        · have hbound : k * P + n % P < b.length := by
            rw [hB]
            have hm1 : (k + 1) * P ≤ N * P := Nat.mul_le_mul_right P (by omega)
            have hm2 : (k + 1) * P = k * P + P := by ring
            omega
          rw [all_zero_getD b hzb _ hbound]
          ring
      rw [hsum]
      have hz0 : c.getD n default + 0 = c.getD n default := by ring
      rw [hz0]
      exact (get?_eq_some_getD c n (by omega)).symm
    · rw [List.get?_len_le (by omega), List.get?_len_le (by omega)]
  rw [hcx] at hX
  exact hX

/-- C7 witness: the zero-input theorem at M = 4, N = 2, P = 1 with A all
zeros: C comes back exactly as it went in. -/
theorem C7_zero_leaves_C_unchanged_even_witness :
    ((0 : ℕ) < 4 ∧ 4 % 4 = 0 ∧ (0 : ℕ) < 2 ∧ 2 % 2 = 0 ∧ (0 : ℕ) < 1
      ∧ (0 : ℕ) < 1
      ∧ ([0, 0, 0, 0, 0, 0, 0, 0] : List ℤ).length = 4 * 2
      ∧ ([5, 6] : List ℤ).length = 2 * 1
      ∧ ([7, 8, 9, 10] : List ℤ).length = 4 * 1
      ∧ (∀ x ∈ ([0, 0, 0, 0, 0, 0, 0, 0] : List ℤ), x = 0))
    ∧ matmul zfma [7, 8, 9, 10] [0, 0, 0, 0, 0, 0, 0, 0] [5, 6] 4 2 1 1
        = .ok [7, 8, 9, 10] :=
  ⟨by decide,
    C7_zero_leaves_C_unchanged_even [7, 8, 9, 10] [0, 0, 0, 0, 0, 0, 0, 0]
      [5, 6] 4 2 1 1 (by decide) (by decide) (by decide) (by decide)
      (by decide) (by decide) (by decide) (by decide) (by decide)
      (Or.inl (by decide))⟩

/-- C8: after `matmul_vec_4x4_slice_init`, accumulator slot i (i = 0..3)
holds exactly row i of the 4-row C block based at `cOff` — the chunk-width
elements starting at `cOff + i*P` — ready to serve as the additive base. -/
theorem C8_slice_init_rows {α : Type} [Inhabited α] (c : List α)
    (cOff P vl : ℕ) (h : cOff + 3 * P + vl ≤ c.length) :
    matmul_vec_4x4_slice_init c cOff P vl
      = some (readSeg c cOff vl, readSeg c (cOff + P) vl,
          readSeg c (cOff + 2 * P) vl, readSeg c (cOff + 3 * P) vl)
    ∧ (readSeg c cOff vl).length = vl
    ∧ (readSeg c (cOff + P) vl).length = vl
    ∧ (readSeg c (cOff + 2 * P) vl).length = vl
    ∧ (readSeg c (cOff + 3 * P) vl).length = vl
    ∧ ∀ j, j < vl →
        (readSeg c cOff vl).get? j = c.get? (cOff + j)
        ∧ (readSeg c (cOff + P) vl).get? j = c.get? (cOff + P + j)
        ∧ (readSeg c (cOff + 2 * P) vl).get? j = c.get? (cOff + 2 * P + j)
        ∧ (readSeg c (cOff + 3 * P) vl).get? j = c.get? (cOff + 3 * P + j) := by
  refine ⟨slice_init_ok c cOff P vl h, readSeg_length c vl cOff,
    readSeg_length c vl (cOff + P), readSeg_length c vl (cOff + 2 * P),
    readSeg_length c vl (cOff + 3 * P), ?_⟩
  intro j hj
  refine ⟨?_, ?_, ?_, ?_⟩
  · rw [readSeg_get? c vl cOff j hj]
    exact (get?_eq_some_getD c (cOff + j) (by omega)).symm
  · rw [readSeg_get? c vl (cOff + P) j hj]
    exact (get?_eq_some_getD c (cOff + P + j) (by omega)).symm
  · rw [readSeg_get? c vl (cOff + 2 * P) j hj]
    exact (get?_eq_some_getD c (cOff + 2 * P + j) (by omega)).symm
  · rw [readSeg_get? c vl (cOff + 3 * P) j hj]
    exact (get?_eq_some_getD c (cOff + 3 * P + j) (by omega)).symm

/-- C8 witness: the slice-init theorem at a concrete 4×2 block of a 4×3
integer C with chunk width 2. -/
theorem C8_slice_init_rows_witness :
    (0 + 3 * 3 + 2 ≤ ([0, 1, 2, 3, 4, 5, 6, 7, 8, 9, 10, 11] : List ℤ).length)
    ∧ (matmul_vec_4x4_slice_init ([0, 1, 2, 3, 4, 5, 6, 7, 8, 9, 10, 11] : List ℤ) 0 3 2
        = some (readSeg ([0, 1, 2, 3, 4, 5, 6, 7, 8, 9, 10, 11] : List ℤ) 0 2,
            readSeg ([0, 1, 2, 3, 4, 5, 6, 7, 8, 9, 10, 11] : List ℤ) (0 + 3) 2,
            readSeg ([0, 1, 2, 3, 4, 5, 6, 7, 8, 9, 10, 11] : List ℤ) (0 + 2 * 3) 2,
            readSeg ([0, 1, 2, 3, 4, 5, 6, 7, 8, 9, 10, 11] : List ℤ) (0 + 3 * 3) 2)
      ∧ (readSeg ([0, 1, 2, 3, 4, 5, 6, 7, 8, 9, 10, 11] : List ℤ) 0 2).length = 2
      ∧ (readSeg ([0, 1, 2, 3, 4, 5, 6, 7, 8, 9, 10, 11] : List ℤ) (0 + 3) 2).length = 2
      ∧ (readSeg ([0, 1, 2, 3, 4, 5, 6, 7, 8, 9, 10, 11] : List ℤ) (0 + 2 * 3) 2).length = 2
      ∧ (readSeg ([0, 1, 2, 3, 4, 5, 6, 7, 8, 9, 10, 11] : List ℤ) (0 + 3 * 3) 2).length = 2
      ∧ ∀ j, j < 2 →
          (readSeg ([0, 1, 2, 3, 4, 5, 6, 7, 8, 9, 10, 11] : List ℤ) 0 2).get? j
            = ([0, 1, 2, 3, 4, 5, 6, 7, 8, 9, 10, 11] : List ℤ).get? (0 + j)
          ∧ (readSeg ([0, 1, 2, 3, 4, 5, 6, 7, 8, 9, 10, 11] : List ℤ) (0 + 3) 2).get? j
            = ([0, 1, 2, 3, 4, 5, 6, 7, 8, 9, 10, 11] : List ℤ).get? (0 + 3 + j)
          ∧ (readSeg ([0, 1, 2, 3, 4, 5, 6, 7, 8, 9, 10, 11] : List ℤ) (0 + 2 * 3) 2).get? j
            = ([0, 1, 2, 3, 4, 5, 6, 7, 8, 9, 10, 11] : List ℤ).get? (0 + 2 * 3 + j)
          ∧ (readSeg ([0, 1, 2, 3, 4, 5, 6, 7, 8, 9, 10, 11] : List ℤ) (0 + 3 * 3) 2).get? j
            = ([0, 1, 2, 3, 4, 5, 6, 7, 8, 9, 10, 11] : List ℤ).get? (0 + 3 * 3 + j)) :=
  ⟨by decide,
    C8_slice_init_rows ([0, 1, 2, 3, 4, 5, 6, 7, 8, 9, 10, 11] : List ℤ) 0 3 2
      (by decide)⟩

/-- C9: a call to `matmul` mutates only the buffer C.  In this functional
embedding A and B are inputs only — no operation of the model writes to
them — and the kernel performs no allocation: whenever the driver returns
a result, it is the C buffer updated in place, with its length exactly
preserved (no resize). -/
theorem C9_mutates_only_C {α : Type} (fma : α → α → α → α)
    (c a b : List α) (M N P VLMAX : ℕ) (cX : List α)
    (h : matmul fma c a b M N P VLMAX = .ok cX) :
    cX.length = c.length :=
  matmul_length fma c a b M N P VLMAX cX h

/-- C9 witness: a concrete successful run returns a C of the same length. -/
theorem C9_mutates_only_C_witness :
    matmul zfma [0, 0, 0, 0] [1, 2, 3, 4, 5, 6, 7, 8] [10, 20] 4 2 1 1
      = .ok [50, 110, 170, 230]
    ∧ ([50, 110, 170, 230] : List ℤ).length = ([0, 0, 0, 0] : List ℤ).length :=
  ⟨rfl,
    C9_mutates_only_C zfma [0, 0, 0, 0] [1, 2, 3, 4, 5, 6, 7, 8] [10, 20]
      4 2 1 1 [50, 110, 170, 230] rfl⟩

/-- C10: provided the vector-length negotiation grants at least 1 for any
request ≥ 1 (VLMAX ≥ 1 in the model), `matmul` terminates for every
M, N, P ≥ 1: the column loop advances by `block_size_p ≥ 1`, the row loop
by 4, and the reduction loop strictly increases n, so the divergence
marker (`stall`) is never returned. -/
theorem C10_terminates {α : Type} (fma : α → α → α → α)
    (c a b : List α) (M N P VLMAX : ℕ)
    (hM : 1 ≤ M) (hN : 1 ≤ N) (hP : 1 ≤ P) (hV : 1 ≤ VLMAX) :
    matmul fma c a b M N P VLMAX ≠ .error .stall := by
  have hbsp1 : 1 ≤ vset VLMAX P := by
    simp only [vset]
    omega
  have hmul : P * 1 ≤ P * vset VLMAX P := Nat.mul_le_mul_left P hbsp1
  have hP1 : P * 1 = P := by ring
  have hns := pLoop_no_stall fma a b M N P VLMAX (vset VLMAX P) hbsp1 P 0 c
    (by omega)
  simpa only [matmul] using hns

/-- C10 witness: the termination theorem at a concrete valid input. -/
theorem C10_terminates_witness :
    ((1 : ℕ) ≤ 4 ∧ (1 : ℕ) ≤ 2 ∧ (1 : ℕ) ≤ 1 ∧ (1 : ℕ) ≤ 1)
    ∧ matmul zfma [0, 0, 0, 0] [1, 2, 3, 4, 5, 6, 7, 8] [10, 20] 4 2 1 1
        ≠ .error .stall :=
  ⟨by decide,
    C10_terminates zfma [0, 0, 0, 0] [1, 2, 3, 4, 5, 6, 7, 8] [10, 20]
      4 2 1 1 (by decide) (by decide) (by decide) (by decide)⟩

end Claims

end ARA
